import Mathlib

/-!
Verification of the ko-speech-tools repository against its specification.

The development shallowly embeds two source modules:

* `src/ko_speech_tools/romanize.py` — revised-romanization tables, the
  precomputed set of boundary-ambiguous patterns, the `academic` translit
  rule, the `Syllable` decomposition view and `Transliter.translit`.
* `src/ko_speech_tools/g2p/special.py` — context-sensitive rewrite rules
  over decomposed-jamo strings (`ye`, `vowel_ui`, `josa_ui`, `jamo`,
  `rieulbieub`, `balb`), each a sequence of `re.sub` calls.

Python strings are embedded as `List Char`; `re.sub` with the concrete
patterns of this file is embedded as a one-pass leftmost scan (`substF` /
`reSub`) driven by a per-pattern matcher function, which was the validated
semantics of `re.sub` for these patterns (no backtracking is possible:
every alternative is tried in order and each pattern consumes a fixed
shape).  Hangul characters are written with `\u` escapes to pin the exact
code points used by the source; a comment shows each readable form.
-/

namespace KoSpeechTools

/-! ## romanize.py: revised romanization tables -/

/-- `REVISED_INITIALS` from romanize.py (19 entries; index 11 is the null
initial, romanized as the empty string). -/
def REVISED_INITIALS : List (List Char) :=
  [['g'], ['k','k'], ['n'], ['d'], ['t','t'], ['l'], ['m'], ['b'], ['p','p'], ['s'],
   ['s','s'], [], ['j'], ['j','j'], ['c','h'], ['k'], ['t'], ['p'], ['h']]

/-- `REVISED_VOWELS` from romanize.py (21 entries). -/
def REVISED_VOWELS : List (List Char) :=
  [['a'], ['a','e'], ['y','a'], ['y','a','e'], ['e','o'], ['e'], ['y','e','o'], ['y','e'],
   ['o'], ['w','a'], ['w','a','e'], ['o','e'], ['y','o'], ['u'], ['w','o'], ['w','e'],
   ['w','i'], ['y','u'], ['e','u'], ['u','i'], ['i']]

/-- `REVISED_FINALS` from romanize.py (28 entries; index 0 is the empty
final, romanized as the empty string). -/
def REVISED_FINALS : List (List Char) :=
  [[], ['g'], ['k','k'], ['g','s'], ['n'], ['n','j'], ['n','h'], ['d'], ['l'], ['l','g'],
   ['l','m'], ['l','b'], ['l','s'], ['l','t'], ['l','p'], ['l','h'], ['m'], ['b'],
   ['b','s'], ['s'], ['s','s'], ['n','g'], ['j'], ['c','h'], ['k'], ['t'], ['p'], ['h']]

/-- Number of split points `i` with `0 ≤ i < length combined` (exactly the
range of the `for i in range(len(combined))` loop in
`academic_ambiguous_patterns`) whose head is a final romanization and whose
tail is an initial romanization. -/
def properSplitCount (combined : List Char) : Nat :=
  ((List.range combined.length).filter fun i =>
    decide (combined.take i ∈ REVISED_FINALS ∧ combined.drop i ∈ REVISED_INITIALS)).length

/-- Number of ALL split points `i` with `0 ≤ i ≤ length combined` whose head
is a final romanization and whose tail is an initial romanization.  This is
the claim-side reading of "more than one valid re-segmentation": it also
counts the split that places the whole string into the final and the empty
string (a valid romanization, index 11) into the initial. -/
def fullSplitCount (combined : List Char) : Nat :=
  ((List.range (combined.length + 1)).filter fun i =>
    decide (combined.take i ∈ REVISED_FINALS ∧ combined.drop i ∈ REVISED_INITIALS)).length

/-- All (final, initial) romanization pairs, in the order of
`itertools.product(REVISED_FINALS, REVISED_INITIALS)`. -/
def fiPairs : List (List Char × List Char) :=
  REVISED_FINALS.flatMap fun f => REVISED_INITIALS.map fun i => (f, i)

/-- `academic_ambiguous_patterns()` from romanize.py: the loop adds
`final ++ initial` to the result set exactly when at least two split points
`i ∈ range(len(combined))` re-segment it into a (final, initial) pair
(`check` records the first valid split, the second one triggers
`result.add`).  Duplicates are irrelevant: the Python value is a set, used
only through membership. -/
def academic_ambiguous_patterns : List (List Char) :=
  fiPairs.filterMap fun p =>
    if 2 ≤ properSplitCount (p.1 ++ p.2) then some (p.1 ++ p.2) else none

/-- `ACADEMIC_AMBIGUOUS_PATTERNS`, computed once at module load. -/
def ACADEMIC_AMBIGUOUS_PATTERNS : List (List Char) := academic_ambiguous_patterns

/-! ## romanize.py: Syllable view -/

/-- `Syllable.MIN = ord('가')`. -/
def sylMIN : Nat := 0xAC00

/-- `Syllable.MAX = ord('힣')`. -/
def sylMAX : Nat := 0xD7A3

/-- `Syllable.__init__` on a code point: accepts the code iff it lies in
the Hangul syllable block, otherwise raises (`none`). -/
def mkSyllableCode (code : Nat) : Option Nat :=
  if sylMIN ≤ code ∧ code ≤ sylMAX then some code else none

/-- `Syllable(char)`: decompose via the character's code point. -/
def mkSyllable (c : Char) : Option Nat :=
  mkSyllableCode c.toNat

/-- `Syllable.initial`: `(code - MIN) // 588`. -/
def sylInitial (code : Nat) : Nat := (code - sylMIN) / 588

/-- `Syllable.vowel`: `((code - MIN) // 28) % 21`. -/
def sylVowel (code : Nat) : Nat := ((code - sylMIN) / 28) % 21

/-- `Syllable.final`: `(code - MIN) % 28`. -/
def sylFinal (code : Nat) : Nat := (code - sylMIN) % 28

/-! ## romanize.py: the academic rule and the transliterator -/

/-- Romanization of one syllable code: initial ++ vowel ++ final, exactly
the indexing expression of the `academic` rule. -/
def romanOf (code : Nat) : List Char :=
  REVISED_INITIALS.getD (sylInitial code) [] ++ REVISED_VOWELS.getD (sylVowel code) [] ++
    REVISED_FINALS.getD (sylFinal code) []

/-- The `academic` rule of romanize.py.  `now` is the pair
`(character, Syllable-or-None)` built by `translit`; `pre` is the previous
pair (`translit` always passes a pair, whose components may be `None`).
A non-syllable position returns its raw character (`if not s: return c`;
both components `None` return `None`).  The marker is set only when the
previous position carries a syllable (`if ps:`), and then exactly when the
current initial is 11 or the previous-final ++ current-initial romanization
is an ambiguous pattern. -/
def academic (now : Option Char × Option Nat)
    (pre : Option (Option Char × Option Nat)) : Option (List Char) :=
  match now.2 with
  | none => now.1.map (fun ch => [ch])
  | some s =>
      let ps : Option Nat := match pre with | none => none | some p => p.2
      let marker : Bool :=
        match ps with
        | some psv =>
            decide (sylInitial s = 11 ∨
              (REVISED_FINALS.getD (sylFinal psv) [] ++
                REVISED_INITIALS.getD (sylInitial s) []) ∈ ACADEMIC_AMBIGUOUS_PATTERNS)
        | none => false
      some ((if marker then ['-'] else []) ++ romanOf s)

/-- The loop body state of `Transliter.translit`: scan the text, keeping
the sliding pairs `pre` and `now`; the rule fires on `now` once its
successor exists (`if now[0] is not None`), and once more after the loop
(`now` is always a tuple, hence always truthy there). -/
def translitGo (pre now : Option Char × Option Nat) (acc : List Char) :
    List Char → List Char
  | [] =>
      match academic now (some pre) with
      | some out => acc ++ out
      | none => acc
  | c :: rest =>
      let post : Option Char × Option Nat := (some c, mkSyllable c)
      let acc' : List Char :=
        match now.1 with
        | some _ =>
            match academic now (some pre) with
            | some out => acc ++ out
            | none => acc
        | none => acc
      translitGo now post acc' rest

/-- `Transliter(academic).translit(text)`. -/
def translit (text : List Char) : List Char :=
  translitGo (none, none) (none, none) [] text

/-- The stream element built for one character of the text:
`(c, Syllable(c))`, with `None` in the second slot when the constructor
raises. -/
def elemOf (c : Char) : Option Char × Option Nat := (some c, mkSyllable c)

/-- The per-position output fragments of the transliterator: position `i`
is rendered by the rule with the element of position `i - 1` (or the
initial `(None, None)` pair) as `pre`.  `translit` is proved below to be
the concatenation of these fragments. -/
def fragsGo (pre : Option Char × Option Nat) : List Char → List (List Char)
  | [] => []
  | c :: rest => (academic (elemOf c) (some pre)).getD [] :: fragsGo (elemOf c) rest

/-! ## g2p/special.py: an embedding of re.sub for the file's patterns

Each `re.sub(pattern, repl, s)` call of special.py is embedded as a
one-pass, leftmost, non-overlapping scan `reSub tm s`: at each position the
matcher `tm` is offered the remaining suffix; on a match it returns the
replacement text and the suffix after the match, and the scan resumes
there; otherwise one character is emitted and the scan advances by one.
This is the observable semantics of `re.sub` for the deterministic,
fixed-shape patterns of this file (no backtracking can occur; alternatives
are tried in order), and of `str.replace` with a literal pattern, as used
by `josa_ui`.  Hangul characters are written as `\u` escapes to pin the
exact code points of the source; a comment shows the readable form. -/

/-- Fuel-indexed scan; `reSub` supplies fuel `l.length`, which the scan
never exhausts when the matcher consumes at least one character. -/
def substF (tm : List Char → Option (List Char × List Char)) : Nat → List Char → List Char
  | _, [] => []
  | 0, l => l
  | n + 1, c :: m =>
      match tm (c :: m) with
      | some (out, r) => out ++ substF tm n r
      | none => c :: substF tm n m

/-- One `re.sub` pass of the matcher `tm` over `l`. -/
def reSub (tm : List Char → Option (List Char × List Char)) (l : List Char) : List Char :=
  substF tm l.length l

/-- A matcher consumes at least one character of the offered suffix. -/
def Consumes (tm : List Char → Option (List Char × List Char)) : Prop :=
  ∀ l out r, tm l = some (out, r) → r.length < l.length

/-- The characters matched by Python's regex `\s` on `str` (so `\S` is the
complement); checked against CPython over the basic multilingual plane. -/
def pythonWhitespace : List Char :=
  [' ', '\t', '\n', '\r', '\x0B', '\x0C', '\x1C', '\x1D', '\x1E', '\x1F',
   '\x85', '\xA0', ' ', ' ', ' ', ' ', ' ', ' ',
   ' ', ' ', ' ', ' ', ' ', ' ', '\u2028',
   '\u2029', ' ', ' ', '　']

/-- The consonant class of `ye`: `[ᄀᄁᄃᄄㄹᄆᄇᄈᄌᄍᄎᄏᄐᄑᄒ]`.  The fifth
entry `ㄹ` is the compatibility jamo ㄹ, exactly as in the source (not
the choseong `ᄅ`). -/
def yeConsonants : List Char :=
  ['ᄀ', 'ᄁ', 'ᄃ', 'ᄄ', 'ㄹ', 'ᄆ', 'ᄇ',
   'ᄈ', 'ᄌ', 'ᄍ', 'ᄎ', 'ᄏ', 'ᄐ', 'ᄑ', 'ᄒ']

/-- Matcher for `([ᄀᄁᄃᄄㄹᄆᄇᄈᄌᄍᄎᄏᄐᄑᄒ])ᅨ → \1ᅦ` (rule 5.2). -/
def tryYe : List Char → Option (List Char × List Char)
  | c :: v :: r =>
      if c ∈ yeConsonants ∧ v = 'ᅨ' then some ([c, 'ᅦ'], r) else none
  | _ => none

/-- `ye(inp, descriptive=...)`: ᅨ → ᅦ simplification, descriptive only. -/
def ye (inp : List Char) (descriptive : Bool) : List Char :=
  if descriptive then reSub tryYe inp else inp

/-- Matcher for `(\Sᄋ)ᅴ → \1ᅵ` (rule 5.4.1): non-whitespace character,
then ᄋ (`ᄋ`), then ᅴ (`ᅴ`), rewritten to keep the context and ᄋ
and turn ᅴ into ᅵ (`ᅵ`). -/
def tryVowelUi : List Char → Option (List Char × List Char)
  | c :: o :: v :: r =>
      if c ∉ pythonWhitespace ∧ o = 'ᄋ' ∧ v = 'ᅴ' then
        some ([c, 'ᄋ', 'ᅵ'], r)
      else none
  | _ => none

/-- `vowel_ui(inp, descriptive=...)`: non-initial ᅴ → ᅵ, descriptive only. -/
def vowel_ui (inp : List Char) (descriptive : Bool) : List Char :=
  if descriptive then reSub tryVowelUi inp else inp

/-- Matcher for `의/J → 에` (rule 5.4.2, descriptive branch): the jamo pair
의 (`의`) plus the tag `/J`, rewritten to 에 (`에`). -/
def tryJosaUi : List Char → Option (List Char × List Char)
  | a :: b :: c :: d :: r =>
      if a = 'ᄋ' ∧ b = 'ᅴ' ∧ c = '/' ∧ d = 'J' then
        some (['ᄋ', 'ᅦ'], r)
      else none
  | _ => none

/-- Matcher for the literal occurrence `"/J"`, removed by
`inp.replace("/J", "")` in the non-descriptive branch. -/
def tryRemoveJ : List Char → Option (List Char × List Char)
  | a :: b :: r => if a = '/' ∧ b = 'J' then some ([], r) else none
  | _ => none

/-- `josa_ui(inp, descriptive=...)`. -/
def josa_ui (inp : List Char) (descriptive : Bool) : List Char :=
  if descriptive then reSub tryJosaUi inp else reSub tryRemoveJ inp

/-- Matcher family for the four substitutions of `jamo` (rule 16): one
character of the class `ctxs`, one coda of `codas`, then the null onset ᄋ
(`ᄋ`); the match is replaced by the kept context character (`\1`)
followed by `rep`. -/
def tryJamo (ctxs codas : List Char) (rep : Char) :
    List Char → Option (List Char × List Char)
  | a :: b :: c :: r =>
      if a ∈ ctxs ∧ b ∈ codas ∧ c = 'ᄋ' then some ([a, rep], r) else none
  | _ => none

/-- `jamo(inp)`: the four `re.sub` calls in source order.  The classes
written `[그]` and `[으]` in the source are the two-character classes
`[그]` (ᄀ, ᅳ) and `[으]` (ᄋ, ᅳ); the codas are
ᆮ (`ᆮ`), ᆽᆾᇀᇂ (`ᆽ..ᇂ`), ᆿ (`ᆿ`), ᇁ (`ᇁ`) and
the replacements ᄉ (`ᄉ`), ᄀ (`ᄀ`), ᄇ (`ᄇ`). -/
def jamo (inp : List Char) (descriptive : Bool) : List Char :=
  reSub (tryJamo ['ᄋ', 'ᅳ'] ['ᇁ'] 'ᄇ')
    (reSub (tryJamo ['ᄋ', 'ᅳ'] ['ᆿ'] 'ᄀ')
      (reSub (tryJamo ['ᄋ', 'ᅳ'] ['ᆽ', 'ᆾ', 'ᇀ', 'ᇂ'] 'ᄉ')
        (reSub (tryJamo ['ᄀ', 'ᅳ'] ['ᆮ'] 'ᄉ') inp)))

/-- Matcher family for the four substitutions of `rieulbieub` (rule 25):
`([ᆲᆴ])/P<onset> → \1<tensed>`, with ᆲ = `ᆲ` and ᆴ = `ᆴ`. -/
def tryTense (onset tensed : Char) : List Char → Option (List Char × List Char)
  | c :: s1 :: s2 :: o :: r =>
      if (c = 'ᆲ' ∨ c = 'ᆴ') ∧ s1 = '/' ∧ s2 = 'P' ∧ o = onset then
        some ([c, tensed], r)
      else none
  | _ => none

/-- `rieulbieub(inp)`: the four `re.sub` calls in source order, onsets
ᄀᄃᄉᄌ (`ᄀ ᄃ ᄉ ᄌ`) to tensed ᄁᄄᄊᄍ
(`ᄁ ᄄ ᄊ ᄍ`). -/
def rieulbieub (inp : List Char) (descriptive : Bool) : List Char :=
  reSub (tryTense 'ᄌ' 'ᄍ')
    (reSub (tryTense 'ᄉ' 'ᄊ')
      (reSub (tryTense 'ᄃ' 'ᄄ')
        (reSub (tryTense 'ᄀ' 'ᄁ') inp)))

/-- Matcher for `(바)ᆲ($|[^ᄋᄒ]) → \1ᆸ\2` of `balb` (rule 10.1): the jamo
pair 바 (`바`), coda ᆲ (`ᆲ`), then either end of input or
one character other than ᄋ/ᄒ (`ᄋ`/`ᄒ`); the coda becomes ᆸ
(`ᆸ`).  `$` is modelled as end of input; Python additionally lets `$`
match just before a trailing newline, in which case the class branch
produces the identical output, so the two semantics agree on every
input. -/
def tryBalb1 : List Char → Option (List Char × List Char)
  | a :: b :: c :: rest =>
      if a = 'ᄇ' ∧ b = 'ᅡ' ∧ c = 'ᆲ' then
        match rest with
        | [] => some (['ᄇ', 'ᅡ', 'ᆸ'], [])
        | d :: r =>
            if d ≠ 'ᄋ' ∧ d ≠ 'ᄒ' then
              some (['ᄇ', 'ᅡ', 'ᆸ', d], r)
            else none
      else none
  | _ => none

/-- Matcher for `(너)ᆲ([ᄌᄍ]ᅮ|[ᄃᄄ]ᅮ) → \1ᆸ\2` of `balb`: the jamo pair
너 (`너`), coda ᆲ, an onset among ᄌᄍᄃᄄ, then ᅮ (`ᅮ`). -/
def tryBalb2 : List Char → Option (List Char × List Char)
  | a :: b :: c :: d :: e :: r =>
      if a = 'ᄂ' ∧ b = 'ᅥ' ∧ c = 'ᆲ' ∧
          (d = 'ᄌ' ∨ d = 'ᄍ' ∨ d = 'ᄃ' ∨ d = 'ᄄ') ∧ e = 'ᅮ' then
        some (['ᄂ', 'ᅥ', 'ᆸ', d, e], r)
      else none
  | _ => none

/-- `balb(inp)`: the 밟-exception substitution, then the 넓-exception
substitution. -/
def balb (inp : List Char) (descriptive : Bool) : List Char :=
  reSub tryBalb2 (reSub tryBalb1 inp)

/-! ### Claim-side definitions for the g2p rules -/

/-- Claim-side rewriting for `ye` in descriptive mode, as a direct
recursion: each leftmost occurrence of class-consonant ++ ᅨ becomes the
consonant ++ ᅦ. -/
def yeDescr : List Char → List Char
  | [] => []
  | [c] => [c]
  | c :: v :: r =>
      if c ∈ yeConsonants ∧ v = 'ᅨ' then c :: 'ᅦ' :: yeDescr r
      else c :: yeDescr (v :: r)

/-- Claim-side rewriting for `vowel_ui` in descriptive mode: each leftmost
non-initial 의 (의 preceded by a non-whitespace character) becomes 이. -/
def uiDescr : List Char → List Char
  | [] => []
  | [c] => [c]
  | [c, o] => [c, o]
  | c :: o :: v :: r =>
      if c ∉ pythonWhitespace ∧ o = 'ᄋ' ∧ v = 'ᅴ' then
        c :: 'ᄋ' :: 'ᅵ' :: uiDescr r
      else c :: uiDescr (o :: v :: r)

/-- Claim-side rewriting for `josa_ui` in descriptive mode: each leftmost
의/J becomes 에. -/
def josaDescr : List Char → List Char
  | [] => []
  | [a] => [a]
  | [a, b] => [a, b]
  | [a, b, c] => [a, b, c]
  | a :: b :: c :: d :: r =>
      if a = 'ᄋ' ∧ b = 'ᅴ' ∧ c = '/' ∧ d = 'J' then
        'ᄋ' :: 'ᅦ' :: josaDescr r
      else a :: josaDescr (b :: c :: d :: r)

/-- Claim-side removal of every leftmost `/J` occurrence, the behaviour of
`inp.replace("/J", "")`. -/
def removeJTags : List Char → List Char
  | [] => []
  | [c] => [c]
  | a :: b :: r => if a = '/' ∧ b = 'J' then removeJTags r else a :: removeJTags (b :: r)

/-- First matching onset → tensed-onset entry of the map `M`. -/
def tenseLookup (o : Char) : List (Char × Char) → Option Char
  | [] => none
  | (p, t) :: M => if o = p then some t else tenseLookup o M

/-- Claim-side single simultaneous pass for C5: every occurrence of coda
ᆲ/ᆴ followed by `/P` and an onset in the map `M` is replaced by the coda
and the tensed onset (tag removed); everything else is copied unchanged. -/
def rieulbieubSim (M : List (Char × Char)) : List Char → List Char
  | [] => []
  | [c] => [c]
  | [c, d] => [c, d]
  | [c, d, e] => [c, d, e]
  | c :: s1 :: s2 :: o :: r =>
      if (c = 'ᆲ' ∨ c = 'ᆴ') ∧ s1 = '/' ∧ s2 = 'P' then
        match tenseLookup o M with
        | some t => c :: t :: rieulbieubSim M r
        | none => c :: rieulbieubSim M (s1 :: s2 :: o :: r)
      else c :: rieulbieubSim M (s1 :: s2 :: o :: r)

/-- The onset → tensed map of regulation 25, in source order. -/
def tenseMap : List (Char × Char) :=
  [('ᄀ', 'ᄁ'), ('ᄃ', 'ᄄ'), ('ᄉ', 'ᄊ'), ('ᄌ', 'ᄍ')]

/-- Whether the string contains an occurrence of the tag `/J`. -/
def hasTagJ : List Char → Bool
  | a :: b :: r => if a = '/' ∧ b = 'J' then true else hasTagJ (b :: r)
  | _ => false

/-- Whether the string contains an occurrence of `//J`. -/
def hasSlashSlashJ : List Char → Bool
  | a :: b :: c :: r => if a = '/' ∧ b = '/' ∧ c = 'J' then true else hasSlashSlashJ (b :: c :: r)
  | _ => false

/-! ## Theorems -/

theorem mem_fiPairs {f i : List Char} :
    (f, i) ∈ fiPairs ↔ f ∈ REVISED_FINALS ∧ i ∈ REVISED_INITIALS := by
  simp [fiPairs]

/-- C1, counterexample: the claim states that `ACADEMIC_AMBIGUOUS_PATTERNS`
contains a concatenation final-romanization ++ initial-romanization iff more
than one split point re-segments it into a (final, initial) pair.  The
string `"g"` is such a concatenation (final `"g"` ++ the empty initial) and
admits two re-segmentations — `("", "g")` and `("g", "")` — yet it is not
in the computed set, because the source loop ranges over
`i in range(len(combined))` and never tests the empty-tail split. -/
theorem c1_counterexample :
    (∃ f ∈ REVISED_FINALS, ∃ i ∈ REVISED_INITIALS, ['g'] = f ++ i) ∧
      2 ≤ fullSplitCount ['g'] ∧ ['g'] ∉ ACADEMIC_AMBIGUOUS_PATTERNS := by
  exact ⟨⟨['g'], by decide, [], by decide, by decide⟩, by decide, by decide⟩

/-- C1 (amended): `ACADEMIC_AMBIGUOUS_PATTERNS` contains a string iff it is
a concatenation final-romanization ++ initial-romanization and more than one
split point with index strictly below the string's length (equivalently:
with a nonempty tail, matching the source's `range(len(combined))`) yields
a head in `REVISED_FINALS` and a tail in `REVISED_INITIALS`. -/
theorem c1_ambiguous_iff (s : List Char) :
    s ∈ ACADEMIC_AMBIGUOUS_PATTERNS ↔
      ((∃ f ∈ REVISED_FINALS, ∃ i ∈ REVISED_INITIALS, s = f ++ i) ∧
        2 ≤ properSplitCount s) := by
  constructor
  · intro hs
    rcases List.mem_filterMap.mp hs with ⟨p, hp, hpe⟩
    by_cases h2 : 2 ≤ properSplitCount (p.1 ++ p.2)
    · rw [if_pos h2] at hpe
      cases hpe
      rcases mem_fiPairs.mp hp with ⟨hf, hi⟩
      exact ⟨⟨p.1, hf, p.2, hi, rfl⟩, h2⟩
    · rw [if_neg h2] at hpe
      cases hpe
  · rintro ⟨⟨f, hf, i, hi, rfl⟩, h2⟩
    exact List.mem_filterMap.mpr ⟨(f, i), mem_fiPairs.mpr ⟨hf, hi⟩, if_pos h2⟩

/-- C3: constructing a `Syllable` fails exactly outside `[U+AC00, U+D7A3]`;
inside the block the view satisfies the fixed-divisor formulas, the range
bounds of the claim, and the syllable-block offset reconstruction. -/
theorem c3_syllable_decomposition (cp : Nat) :
    (¬(sylMIN ≤ cp ∧ cp ≤ sylMAX) → mkSyllableCode cp = none) ∧
    (sylMIN ≤ cp → cp ≤ sylMAX →
      mkSyllableCode cp = some cp ∧
      sylInitial cp = (cp - 0xAC00) / 588 ∧
      sylVowel cp = ((cp - 0xAC00) / 28) % 21 ∧
      sylFinal cp = (cp - 0xAC00) % 28 ∧
      sylInitial cp < 19 ∧ sylVowel cp < 21 ∧ sylFinal cp < 28 ∧
      0xAC00 + (sylInitial cp * 21 + sylVowel cp) * 28 + sylFinal cp = cp) := by
  constructor
  · intro h
    simp only [mkSyllableCode, if_neg h]
  · intro h1 h2
    refine ⟨by simp [mkSyllableCode, h1, h2], rfl, rfl, rfl, ?_, ?_, ?_, ?_⟩
    · simp only [sylInitial, sylMIN, sylMAX] at *
      omega
    · exact Nat.mod_lt _ (by norm_num)
    · exact Nat.mod_lt _ (by norm_num)
    · simp only [sylInitial, sylVowel, sylFinal, sylMIN] at *
      omega

/-- Witness for C3: both branches are realizable, at code points 65 (the
letter A, rejected) and 0xAE09 (급, decomposed and reconstructed). -/
theorem c3_syllable_decomposition_witness :
    mkSyllableCode 65 = none ∧ mkSyllableCode 0xAE09 = some 0xAE09 ∧
      0xAC00 + (sylInitial 0xAE09 * 21 + sylVowel 0xAE09) * 28 + sylFinal 0xAE09 = 0xAE09 :=
  ⟨(c3_syllable_decomposition 65).1 (by decide),
   ((c3_syllable_decomposition 0xAE09).2 (by decide) (by decide)).1,
   ((c3_syllable_decomposition 0xAE09).2 (by decide) (by decide)).2.2.2.2.2.2.2⟩

/-! ### Transliterator structure lemmas -/

theorem academic_fst_some (ch : Char) (sn : Option Nat)
    (pre : Option (Option Char × Option Nat)) :
    academic (some ch, sn) pre = some ((academic (some ch, sn) pre).getD []) := by
  cases sn <;> simp [academic]

theorem translitGo_spec (l : List Char) :
    ∀ (pre : Option Char × Option Nat) (ch : Char) (sn : Option Nat) (acc : List Char),
      translitGo pre (some ch, sn) acc l =
        acc ++ (academic (some ch, sn) (some pre)).getD [] ++
          (fragsGo (some ch, sn) l).flatten := by
  induction l with
  | nil =>
      intro pre ch sn acc
      cases h : academic (some ch, sn) (some pre) with
      | none =>
          have := academic_fst_some ch sn (some pre)
          rw [h] at this
          cases this
      | some out => simp [translitGo, h, fragsGo]
  | cons c' rest ih =>
      intro pre ch sn acc
      cases h : academic (some ch, sn) (some pre) with
      | none =>
          have := academic_fst_some ch sn (some pre)
          rw [h] at this
          cases this
      | some out =>
          simp only [translitGo, h]
          rw [ih (some ch, sn) c' (mkSyllable c') (acc ++ out)]
          simp [fragsGo, elemOf, h, List.append_assoc]

theorem translit_eq_flatten (text : List Char) :
    translit text = (fragsGo (none, none) text).flatten := by
  cases text with
  | nil => rfl
  | cons c rest =>
      show translitGo (none, none) (none, none) [] (c :: rest) = _
      simp only [translitGo]
      rw [translitGo_spec rest (none, none) c (mkSyllable c) []]
      simp [fragsGo, elemOf]

theorem fragsGo_append (a : List Char) :
    ∀ (pre : Option Char × Option Nat) (b : List Char),
      fragsGo pre (a ++ b) =
        fragsGo pre a ++ fragsGo (a.foldl (fun _ ch => elemOf ch) pre) b := by
  induction a with
  | nil => intro pre b; simp [fragsGo]
  | cons x a' ih => intro pre b; simp [fragsGo, ih (elemOf x) b]

theorem dash_not_mem_getD (L : List (List Char)) (hL : ∀ l ∈ L, '-' ∉ l) (i : Nat) :
    '-' ∉ L.getD i [] := by
  cases h : L[i]? with
  | none => simp [List.getD_eq_getElem?_getD, h]
  | some v =>
      have hv : v ∈ L := List.getElem?_mem h
      simpa [List.getD_eq_getElem?_getD, h] using hL v hv

theorem academic_no_marker (ch : Char) (s : Nat) (pc : Option Char) :
    academic (some ch, some s) (some (pc, none)) = some (romanOf s) := by
  simp only [academic]
  exact congrArg some (List.nil_append _)

theorem academic_eval (c pc : Option Char) (s ps : Nat) :
    academic (c, some s) (some (pc, some ps)) =
      some ((if sylInitial s = 11 ∨
          (REVISED_FINALS.getD (sylFinal ps) [] ++ REVISED_INITIALS.getD (sylInitial s) []) ∈
            ACADEMIC_AMBIGUOUS_PATTERNS then ['-'] else []) ++ romanOf s) := by
  simp only [academic, decide_eq_true_eq]

theorem academic_marker_pos (c pc : Option Char) (s ps : Nat)
    (hcond : sylInitial s = 11 ∨
      (REVISED_FINALS.getD (sylFinal ps) [] ++ REVISED_INITIALS.getD (sylInitial s) []) ∈
        ACADEMIC_AMBIGUOUS_PATTERNS) :
    academic (c, some s) (some (pc, some ps)) = some ('-' :: romanOf s) := by
  rw [academic_eval, if_pos hcond]
  exact congrArg some List.singleton_append

theorem academic_marker_neg (c pc : Option Char) (s ps : Nat)
    (hcond : ¬(sylInitial s = 11 ∨
      (REVISED_FINALS.getD (sylFinal ps) [] ++ REVISED_INITIALS.getD (sylInitial s) []) ∈
        ACADEMIC_AMBIGUOUS_PATTERNS)) :
    academic (c, some s) (some (pc, some ps)) = some (romanOf s) := by
  rw [academic_eval, if_neg hcond]
  exact congrArg some (List.nil_append _)

theorem some_ne_some_cons (l : List Char) : some l ≠ some ('-' :: l) := by
  intro h
  have hlen := congrArg List.length (Option.some.inj h)
  simp only [List.length_cons] at hlen
  omega

theorem romanOf_ne_marked (s : Nat) : some (romanOf s) ≠ some ('-' :: romanOf s) :=
  some_ne_some_cons (romanOf s)

theorem fragsGo_start (b : List Char) (c : Char) (s : Nat) (hc : mkSyllable c = some s) :
    fragsGo (none, none) (c :: b) = romanOf s :: fragsGo (elemOf c) b := by
  simp only [fragsGo, elemOf, hc]
  rw [academic_no_marker, Option.getD_some]

theorem fragsGo_after_nonsyl (b : List Char) (c p : Char) (s : Nat)
    (hc : mkSyllable c = some s) (hp : mkSyllable p = none) :
    fragsGo (elemOf p) (c :: b) = romanOf s :: fragsGo (elemOf c) b := by
  simp only [fragsGo, elemOf, hc, hp]
  rw [academic_no_marker, Option.getD_some]

theorem dash_not_mem_romanOf (s : Nat) : '-' ∉ romanOf s := by
  have h1 := dash_not_mem_getD REVISED_INITIALS (by decide) (sylInitial s)
  have h2 := dash_not_mem_getD REVISED_VOWELS (by decide) (sylVowel s)
  have h3 := dash_not_mem_getD REVISED_FINALS (by decide) (sylFinal s)
  simp only [romanOf, List.mem_append]
  rintro ((h | h) | h)
  · exact h1 h
  · exact h2 h
  · exact h3 h

/-! ### Claims C2, C9 and C10 -/

/-- C2: during academic transliteration with a previous syllable present,
the rendered fragment carries the `-` marker exactly when the current
initial is the null initial 11 or the previous-final ++ current-initial
romanization lies in the precomputed ambiguous set; otherwise the fragment
is exactly initial ++ vowel ++ final romanization with no marker. -/
theorem c2_academic_marker (c pc : Option Char) (s ps : Nat) :
    (academic (c, some s) (some (pc, some ps)) = some ('-' :: romanOf s) ↔
      (sylInitial s = 11 ∨
        (REVISED_FINALS.getD (sylFinal ps) [] ++ REVISED_INITIALS.getD (sylInitial s) []) ∈
          ACADEMIC_AMBIGUOUS_PATTERNS)) ∧
    (¬(sylInitial s = 11 ∨
        (REVISED_FINALS.getD (sylFinal ps) [] ++ REVISED_INITIALS.getD (sylInitial s) []) ∈
          ACADEMIC_AMBIGUOUS_PATTERNS) →
      academic (c, some s) (some (pc, some ps)) = some (romanOf s)) := by
  by_cases hcond : sylInitial s = 11 ∨
      (REVISED_FINALS.getD (sylFinal ps) [] ++ REVISED_INITIALS.getD (sylInitial s) []) ∈
        ACADEMIC_AMBIGUOUS_PATTERNS
  · exact ⟨iff_of_true (academic_marker_pos c pc s ps hcond) hcond,
      fun hn => absurd hcond hn⟩
  · /- the no-marker output is one character shorter than the marked one,
       hence not equal to it -/
    exact ⟨iff_of_false
        (fun h => romanOf_ne_marked s ((academic_marker_neg c pc s ps hcond).symm.trans h))
        hcond,
      fun _ => academic_marker_neg c pc s ps hcond⟩

/-- Witness for C2: the marker fires for 요 after 세 (null initial), and
stays off for 가 after 가 (initial `g`, pattern `g` unambiguous). -/
theorem c2_academic_marker_witness :
    academic (some '요', some 0xC694) (some (some '세', some 0xC138)) =
        some ('-' :: romanOf 0xC694) ∧
      academic (some '가', some 0xAC00) (some (some '가', some 0xAC00)) =
        some (romanOf 0xAC00) :=
  ⟨(c2_academic_marker (some '요') (some '세') 0xC694 0xC138).1.mpr (by decide),
   (c2_academic_marker (some '가') (some '가') 0xAC00 0xAC00).2 (by decide)⟩

/-- C9: the literal end-to-end transliteration examples of the spec. -/
theorem c9_literal_examples :
    translit "".toList = "".toList ∧
    translit "가".toList = "ga".toList ∧
    translit "힣".toList = "hih".toList ∧
    translit "안녕하세요".toList = "annyeonghase-yo".toList :=
  ⟨rfl, by decide, by decide, by decide⟩

/-- C10: a marker is only ever inserted after a Hangul syllable: a
null-initial syllable at the start of the text, or one directly preceded
by a character that is not a Hangul syllable, is rendered as its plain
romanization with no `-`, regardless of the two marker conditions. -/
theorem c10_marker_needs_syllable_before (a b : List Char) (c : Char) (s : Nat)
    (hc : mkSyllable c = some s) (hnull : sylInitial s = 11)
    (hprev : a = [] ∨ ∃ a' p, a = a' ++ [p] ∧ mkSyllable p = none) :
    translit (a ++ c :: b) = (fragsGo (none, none) (a ++ c :: b)).flatten ∧
    fragsGo (none, none) (a ++ c :: b) =
      fragsGo (none, none) a ++ romanOf s :: fragsGo (elemOf c) b ∧
    '-' ∉ romanOf s := by
  refine ⟨translit_eq_flatten _, ?_, dash_not_mem_romanOf s⟩
  rw [fragsGo_append]
  rcases hprev with rfl | ⟨a', p, rfl, hp⟩
  · rw [List.foldl_nil, fragsGo_start b c s hc]
  · rw [List.foldl_append, List.foldl_cons, List.foldl_nil, fragsGo_after_nonsyl b c p s hc hp]

/-- Witness for C10: 오 (null initial) after the non-syllable letter A. -/
theorem c10_marker_needs_syllable_before_witness :
    translit ['A', '오'] = (fragsGo (none, none) ['A', '오']).flatten ∧
    fragsGo (none, none) ['A', '오'] =
      fragsGo (none, none) ['A'] ++ romanOf 0xC624 :: fragsGo (elemOf '오') [] ∧
    '-' ∉ romanOf 0xC624 :=
  c10_marker_needs_syllable_before ['A'] [] '오' 0xC624 (by decide) (by decide)
    (Or.inr ⟨[], 'A', rfl, by decide⟩)


/-! ### g2p rewrite-engine lemmas and the g2p claims -/

theorem substF_congr {tm : List Char → Option (List Char × List Char)} (hc : Consumes tm) :
    ∀ (n₁ : Nat) (l : List Char) (n₂ : Nat), l.length ≤ n₁ → l.length ≤ n₂ →
      substF tm n₁ l = substF tm n₂ l := by
  intro n₁
  induction n₁ with
  | zero =>
      intro l n₂ h1 _
      have : l = [] := List.eq_nil_of_length_eq_zero (Nat.le_zero.mp h1)
      subst this
      cases n₂ <;> rfl
  | succ a ih =>
      intro l n₂ h1 h2
      cases l with
      | nil => cases n₂ <;> rfl
      | cons c m =>
          cases n₂ with
          | zero => exact absurd h2 (by simp)
          | succ b =>
              simp only [substF]
              cases htm : tm (c :: m) with
              | none =>
                  simp only [List.length_cons] at h1 h2
                  exact congrArg (c :: ·) (ih m b (by omega) (by omega))
              | some pr =>
                  obtain ⟨out, r⟩ := pr
                  have hr : r.length < m.length + 1 := hc _ _ _ htm
                  simp only [List.length_cons] at h1 h2
                  exact congrArg (out ++ ·) (ih r b (by omega) (by omega))

theorem reSub_nil (tm : List Char → Option (List Char × List Char)) : reSub tm [] = [] := rfl

theorem reSub_cons_none {tm : List Char → Option (List Char × List Char)} (c : Char)
    (m : List Char) (h : tm (c :: m) = none) : reSub tm (c :: m) = c :: reSub tm m := by
  simp only [reSub, List.length_cons, substF, h]

theorem reSub_cons_some {tm : List Char → Option (List Char × List Char)} (hc : Consumes tm)
    (c : Char) (m out r : List Char) (h : tm (c :: m) = some (out, r)) :
    reSub tm (c :: m) = out ++ reSub tm r := by
  have hr : r.length < m.length + 1 := hc _ _ _ h
  simp only [reSub, List.length_cons, substF, h]
  exact congrArg (out ++ ·) (substF_congr hc m.length r r.length (by omega) le_rfl)

theorem tryYe_consumes : Consumes tryYe := by
  intro l out r h
  match l with
  | [] => exact absurd h (by simp [tryYe])
  | [c] => exact absurd h (by simp [tryYe])
  | c :: v :: m =>
      simp only [tryYe] at h
      split at h
      · injection h with h'
        injection h' with ha hb
        subst hb
        simp only [List.length_cons]
        omega
      · exact absurd h (by simp)

theorem reSub_tryYe_eq (l : List Char) : reSub tryYe l = yeDescr l := by
  induction l using yeDescr.induct with
  | case1 => rfl
  | case2 c => rfl
  | case3 c v r hcv ih =>
      have h : tryYe (c :: v :: r) = some ([c, 'ᅦ'], r) := by
        simp only [tryYe, if_pos hcv]
      rw [reSub_cons_some tryYe_consumes _ _ _ _ h, ih]
      simp only [yeDescr, if_pos hcv]
      rfl
  | case4 c v r hcv ih =>
      have h : tryYe (c :: v :: r) = none := by
        simp only [tryYe, if_neg hcv]
      rw [reSub_cons_none _ _ h, ih]
      simp only [yeDescr, if_neg hcv]

theorem tryVowelUi_consumes : Consumes tryVowelUi := by
  intro l out r h
  match l with
  | [] => exact absurd h (by simp [tryVowelUi])
  | [c] => exact absurd h (by simp [tryVowelUi])
  | [c, o] => exact absurd h (by simp [tryVowelUi])
  | c :: o :: v :: m =>
      simp only [tryVowelUi] at h
      split at h
      · injection h with h'
        injection h' with ha hb
        subst hb
        simp only [List.length_cons]
        omega
      · exact absurd h (by simp)

theorem reSub_tryVowelUi_eq (l : List Char) : reSub tryVowelUi l = uiDescr l := by
  induction l using uiDescr.induct with
  | case1 => rfl
  | case2 c => rfl
  | case3 c o => rfl
  | case4 c o v r hcv ih =>
      have h : tryVowelUi (c :: o :: v :: r) = some ([c, 'ᄋ', 'ᅵ'], r) := by
        simp only [tryVowelUi, if_pos hcv]
      rw [reSub_cons_some tryVowelUi_consumes _ _ _ _ h, ih]
      simp only [uiDescr, if_pos hcv]
      rfl
  | case5 c o v r hcv ih =>
      have h : tryVowelUi (c :: o :: v :: r) = none := by
        simp only [tryVowelUi, if_neg hcv]
      rw [reSub_cons_none _ _ h, ih]
      simp only [uiDescr, if_neg hcv]

theorem tryJosaUi_consumes : Consumes tryJosaUi := by
  intro l out r h
  match l with
  | [] => exact absurd h (by simp [tryJosaUi])
  | [a] => exact absurd h (by simp [tryJosaUi])
  | [a, b] => exact absurd h (by simp [tryJosaUi])
  | [a, b, c] => exact absurd h (by simp [tryJosaUi])
  | a :: b :: c :: d :: m =>
      simp only [tryJosaUi] at h
      split at h
      · injection h with h'
        injection h' with ha hb
        subst hb
        simp only [List.length_cons]
        omega
      · exact absurd h (by simp)

theorem reSub_tryJosaUi_eq (l : List Char) : reSub tryJosaUi l = josaDescr l := by
  induction l using josaDescr.induct with
  | case1 => rfl
  | case2 a => rfl
  | case3 a b => rfl
  | case4 a b c => rfl
  | case5 a b c d r hcv ih =>
      have h : tryJosaUi (a :: b :: c :: d :: r) = some (['ᄋ', 'ᅦ'], r) := by
        simp only [tryJosaUi, if_pos hcv]
      rw [reSub_cons_some tryJosaUi_consumes _ _ _ _ h, ih]
      simp only [josaDescr, if_pos hcv]
      rfl
  | case6 a b c d r hcv ih =>
      have h : tryJosaUi (a :: b :: c :: d :: r) = none := by
        simp only [tryJosaUi, if_neg hcv]
      rw [reSub_cons_none _ _ h, ih]
      simp only [josaDescr, if_neg hcv]

theorem tryRemoveJ_consumes : Consumes tryRemoveJ := by
  intro l out r h
  match l with
  | [] => exact absurd h (by simp [tryRemoveJ])
  | [a] => exact absurd h (by simp [tryRemoveJ])
  | a :: b :: m =>
      simp only [tryRemoveJ] at h
      split at h
      · injection h with h'
        injection h' with ha hb
        subst hb
        simp only [List.length_cons]
        omega
      · exact absurd h (by simp)

theorem reSub_tryRemoveJ_eq (l : List Char) : reSub tryRemoveJ l = removeJTags l := by
  induction l using removeJTags.induct with
  | case1 => rfl
  | case2 c => rfl
  | case3 a b r hab ih =>
      have h : tryRemoveJ (a :: b :: r) = some ([], r) := by
        simp only [tryRemoveJ, if_pos hab]
      rw [reSub_cons_some tryRemoveJ_consumes _ _ _ _ h, ih]
      simp only [removeJTags, if_pos hab]
      rfl
  | case4 a b r hab ih =>
      have h : tryRemoveJ (a :: b :: r) = none := by
        simp only [tryRemoveJ, if_neg hab]
      rw [reSub_cons_none _ _ h, ih]
      simp only [removeJTags, if_neg hab]

/-- C4: the three descriptive-only rules leave prescriptive input unchanged
(`ye`, `vowel_ui`) or only strip the `/J` tags (`josa_ui`), and in
descriptive mode perform exactly their advertised rewrites, here stated as
equality with the claim-side direct recursions. -/
theorem c4_descriptive_only_rules (inp : List Char) :
    ye inp false = inp ∧ ye inp true = yeDescr inp ∧
    vowel_ui inp false = inp ∧ vowel_ui inp true = uiDescr inp ∧
    josa_ui inp false = removeJTags inp ∧ josa_ui inp true = josaDescr inp :=
  ⟨rfl, reSub_tryYe_eq inp, rfl, reSub_tryVowelUi_eq inp,
   reSub_tryRemoveJ_eq inp, reSub_tryJosaUi_eq inp⟩

theorem tryTense_consumes (onset tensed : Char) : Consumes (tryTense onset tensed) := by
  intro l out r h
  match l with
  | [] => exact absurd h (by simp [tryTense])
  | [c] => exact absurd h (by simp [tryTense])
  | [c, d] => exact absurd h (by simp [tryTense])
  | [c, d, e] => exact absurd h (by simp [tryTense])
  | c :: d :: e :: o :: m =>
      simp only [tryTense] at h
      split at h
      · injection h with h'
        injection h' with ha hb
        subst hb
        simp only [List.length_cons]
        omega
      · exact absurd h (by simp)

theorem tryTense_none_head (onset tensed c : Char) (m : List Char)
    (h1 : c ≠ 'ᆲ') (h2 : c ≠ 'ᆴ') : tryTense onset tensed (c :: m) = none := by
  match m with
  | [] => rfl
  | [d] => rfl
  | [d, e] => rfl
  | d :: e :: o :: m' =>
      simp only [tryTense]
      rw [if_neg]
      rintro ⟨hc | hc, -⟩
      · exact h1 hc
      · exact h2 hc

theorem tryTense_none_second (onset tensed c d : Char) (m : List Char) (h : d ≠ '/') :
    tryTense onset tensed (c :: d :: m) = none := by
  match m with
  | [] => rfl
  | [e] => rfl
  | e :: o :: m' =>
      simp only [tryTense]
      rw [if_neg]
      rintro ⟨-, hd, -⟩
      exact h hd

theorem tryTense_none_third (onset tensed c d e : Char) (m : List Char) (h : e ≠ 'P') :
    tryTense onset tensed (c :: d :: e :: m) = none := by
  match m with
  | [] => rfl
  | o :: m' =>
      simp only [tryTense]
      rw [if_neg]
      rintro ⟨-, -, he, -⟩
      exact h he

theorem tryTense_none_fourth (onset tensed c d e o : Char) (m : List Char) (h : o ≠ onset) :
    tryTense onset tensed (c :: d :: e :: o :: m) = none := by
  simp only [tryTense]
  rw [if_neg]
  rintro ⟨-, -, -, ho⟩
  exact h ho

theorem tryTense_match (onset tensed c : Char) (m : List Char) (hc : c = 'ᆲ' ∨ c = 'ᆴ') :
    tryTense onset tensed (c :: '/' :: 'P' :: onset :: m) = some ([c, tensed], m) := by
  rcases hc with rfl | rfl <;> simp [tryTense]

theorem tenseLookup_append_some (o t : Char) (M N : List (Char × Char))
    (h : tenseLookup o M = some t) : tenseLookup o (M ++ N) = some t := by
  induction M with
  | nil => exact Option.noConfusion h
  | cons p M' ih =>
      obtain ⟨u, v⟩ := p
      rw [List.cons_append]
      by_cases ho : o = u
      · simp only [tenseLookup, if_pos ho] at h ⊢
        exact h
      · simp only [tenseLookup, if_neg ho] at h ⊢
        exact ih h

theorem tenseLookup_append_none (o : Char) (M N : List (Char × Char))
    (h : tenseLookup o M = none) : tenseLookup o (M ++ N) = tenseLookup o N := by
  induction M with
  | nil => rfl
  | cons p M' ih =>
      obtain ⟨u, v⟩ := p
      rw [List.cons_append]
      by_cases ho : o = u
      · simp only [tenseLookup, if_pos ho] at h
        exact Option.noConfusion h
      · simp only [tenseLookup, if_neg ho] at h ⊢
        exact ih h

theorem tenseLookup_mem (o t : Char) (M : List (Char × Char))
    (h : tenseLookup o M = some t) : (o, t) ∈ M := by
  induction M with
  | nil => exact Option.noConfusion h
  | cons p M' ih =>
      obtain ⟨u, v⟩ := p
      by_cases ho : o = u
      · simp only [tenseLookup, if_pos ho] at h
        subst ho
        obtain rfl : v = t := Option.some.inj h
        exact List.mem_cons_self ..
      · simp only [tenseLookup, if_neg ho] at h
        exact List.mem_cons_of_mem _ (ih h)

theorem rieulbieubSim_head (M : List (Char × Char)) (x : Char) (m : List Char) :
    ∃ m', rieulbieubSim M (x :: m) = x :: m' := by
  match m with
  | [] => exact ⟨[], rfl⟩
  | [d] => exact ⟨[d], rfl⟩
  | [d, e] => exact ⟨[d, e], rfl⟩
  | d :: e :: o :: r =>
      simp only [rieulbieubSim]
      split
      · split
        · exact ⟨_, rfl⟩
        · exact ⟨_, rfl⟩
      · exact ⟨_, rfl⟩

theorem rieulbieubSim_cons_notCoda (M : List (Char × Char)) (c : Char) (r : List Char)
    (h1 : c ≠ 'ᆲ') (h2 : c ≠ 'ᆴ') :
    rieulbieubSim M (c :: r) = c :: rieulbieubSim M r := by
  match r with
  | [] => rfl
  | [d] => rfl
  | [d, e] => rfl
  | d :: e :: o :: r' =>
      simp only [rieulbieubSim]
      rw [if_neg]
      rintro ⟨hc | hc, -⟩
      · exact h1 hc
      · exact h2 hc

theorem rieulbieubSim_nil_map (l : List Char) : rieulbieubSim [] l = l := by
  induction l using rieulbieubSim.induct ([] : List (Char × Char)) with
  | case1 => rfl
  | case2 c => rfl
  | case3 c d => rfl
  | case4 c d e => rfl
  | case5 c s1 s2 o r hguard t hlook ih => exact Option.noConfusion hlook
  | case6 c s1 s2 o r hguard hlook ih =>
      simp only [rieulbieubSim, if_pos hguard, tenseLookup]
      exact congrArg (c :: ·) ih
  | case7 c s1 s2 o r hguard ih =>
      simp only [rieulbieubSim, if_neg hguard]
      exact congrArg (c :: ·) ih

theorem reSub_tryTense_short (onset tensed : Char) :
    (∀ c : Char, reSub (tryTense onset tensed) [c] = [c]) ∧
    (∀ c d : Char, reSub (tryTense onset tensed) [c, d] = [c, d]) ∧
    (∀ c d e : Char, reSub (tryTense onset tensed) [c, d, e] = [c, d, e]) := by
  refine ⟨fun c => ?_, fun c d => ?_, fun c d e => ?_⟩
  · rw [reSub_cons_none c [] rfl, reSub_nil]
  · rw [reSub_cons_none c [d] rfl, reSub_cons_none d [] rfl, reSub_nil]
  · rw [reSub_cons_none c [d, e] rfl, reSub_cons_none d [e] rfl,
      reSub_cons_none e [] rfl, reSub_nil]

theorem reSub_tense_sim (onset tensed : Char)
    (ho1 : onset ≠ 'ᆲ') (ho2 : onset ≠ 'ᆴ')
    (M : List (Char × Char))
    (hM : ∀ p ∈ M, p.2 ≠ '/' ∧ p.2 ≠ 'ᆲ' ∧ p.2 ≠ 'ᆴ') (l : List Char) :
    reSub (tryTense onset tensed) (rieulbieubSim M l) =
      rieulbieubSim (M ++ [(onset, tensed)]) l := by
  induction l using rieulbieubSim.induct M with
  | case1 => rfl
  | case2 c =>
      exact (reSub_tryTense_short onset tensed).1 c
  | case3 c d =>
      exact (reSub_tryTense_short onset tensed).2.1 c d
  | case4 c d e =>
      exact (reSub_tryTense_short onset tensed).2.2 c d e
  | case5 c s1 s2 o r hguard t hlook ih =>
      have hSim : rieulbieubSim M (c :: s1 :: s2 :: o :: r) =
          c :: t :: rieulbieubSim M r := by
        simp only [rieulbieubSim, if_pos hguard, hlook]
      obtain ⟨ht1, ht2, ht3⟩ := hM (o, t) (tenseLookup_mem o t M hlook)
      have hSim2 : rieulbieubSim (M ++ [(onset, tensed)]) (c :: s1 :: s2 :: o :: r) =
          c :: t :: rieulbieubSim (M ++ [(onset, tensed)]) r := by
        simp only [rieulbieubSim, if_pos hguard, tenseLookup_append_some o t M _ hlook]
      rw [hSim, reSub_cons_none c _ (tryTense_none_second onset tensed c t _ ht1),
        reSub_cons_none t _ (tryTense_none_head onset tensed t _ ht2 ht3), ih, hSim2]
  | case6 c s1 s2 o r hguard hlook ih =>
      obtain ⟨hc, hs1, hs2⟩ := hguard
      subst hs1
      subst hs2
      by_cases ho : o = onset
      · subst ho
        have hSim : rieulbieubSim M (c :: '/' :: 'P' :: o :: r) =
            c :: '/' :: 'P' :: o :: rieulbieubSim M r := by
          simp only [rieulbieubSim, and_true, if_pos hc, hlook]
          rw [rieulbieubSim_cons_notCoda M '/' _ (by decide) (by decide),
            rieulbieubSim_cons_notCoda M 'P' _ (by decide) (by decide),
            rieulbieubSim_cons_notCoda M o _ ho1 ho2]
        have ihr : reSub (tryTense o tensed) (rieulbieubSim M r) =
            rieulbieubSim (M ++ [(o, tensed)]) r := by
          have h1 := ih
          rw [rieulbieubSim_cons_notCoda M '/' _ (by decide) (by decide),
            rieulbieubSim_cons_notCoda M 'P' _ (by decide) (by decide),
            rieulbieubSim_cons_notCoda M o _ ho1 ho2,
            reSub_cons_none '/' _ (tryTense_none_head _ _ '/' _ (by decide) (by decide)),
            reSub_cons_none 'P' _ (tryTense_none_head _ _ 'P' _ (by decide) (by decide)),
            reSub_cons_none o _ (tryTense_none_head _ _ o _ ho1 ho2),
            rieulbieubSim_cons_notCoda (M ++ [(o, tensed)]) '/' _ (by decide) (by decide),
            rieulbieubSim_cons_notCoda (M ++ [(o, tensed)]) 'P' _ (by decide) (by decide),
            rieulbieubSim_cons_notCoda (M ++ [(o, tensed)]) o _ ho1 ho2] at h1
          injection h1 with _ h1
          injection h1 with _ h1
          injection h1 with _ h1
        have hlook2 : tenseLookup o (M ++ [(o, tensed)]) = some tensed := by
          rw [tenseLookup_append_none o M _ hlook]
          simp [tenseLookup]
        have hSim2 : rieulbieubSim (M ++ [(o, tensed)]) (c :: '/' :: 'P' :: o :: r) =
            c :: tensed :: rieulbieubSim (M ++ [(o, tensed)]) r := by
          simp only [rieulbieubSim, and_true, if_pos hc, hlook2]
        rw [hSim,
          reSub_cons_some (tryTense_consumes o tensed) c _ _ _ (tryTense_match o tensed c _ hc),
          ihr, hSim2]
        rfl
      · have hSim : rieulbieubSim M (c :: '/' :: 'P' :: o :: r) =
            c :: rieulbieubSim M ('/' :: 'P' :: o :: r) := by
          simp only [rieulbieubSim, and_true, if_pos hc, hlook]
        obtain ⟨m', hm'⟩ := rieulbieubSim_head M o r
        have e1 : rieulbieubSim M ('/' :: 'P' :: o :: r) = '/' :: 'P' :: o :: m' := by
          rw [rieulbieubSim_cons_notCoda M '/' _ (by decide) (by decide),
            rieulbieubSim_cons_notCoda M 'P' _ (by decide) (by decide), hm']
        have hlook2 : tenseLookup o (M ++ [(onset, tensed)]) = none := by
          rw [tenseLookup_append_none o M _ hlook]
          simp only [tenseLookup, if_neg ho]
        have hSim2 : rieulbieubSim (M ++ [(onset, tensed)]) (c :: '/' :: 'P' :: o :: r) =
            c :: rieulbieubSim (M ++ [(onset, tensed)]) ('/' :: 'P' :: o :: r) := by
          simp only [rieulbieubSim, and_true, if_pos hc, hlook2]
        rw [hSim, e1,
          reSub_cons_none c _ (tryTense_none_fourth onset tensed c '/' 'P' o m' ho),
          ← e1, ih, hSim2]
  | case7 c s1 s2 o r hguard ih =>
      have hSim : rieulbieubSim M (c :: s1 :: s2 :: o :: r) =
          c :: rieulbieubSim M (s1 :: s2 :: o :: r) := by
        simp only [rieulbieubSim, if_neg hguard]
      have hSim2 : rieulbieubSim (M ++ [(onset, tensed)]) (c :: s1 :: s2 :: o :: r) =
          c :: rieulbieubSim (M ++ [(onset, tensed)]) (s1 :: s2 :: o :: r) := by
        simp only [rieulbieubSim, if_neg hguard]
      have hnone : tryTense onset tensed (c :: rieulbieubSim M (s1 :: s2 :: o :: r)) = none := by
        by_cases hc : c = 'ᆲ' ∨ c = 'ᆴ'
        · by_cases hs1 : s1 = '/'
          · by_cases hs2 : s2 = 'P'
            · exact absurd ⟨hc, hs1, hs2⟩ hguard
            · subst hs1
              obtain ⟨m', hm'⟩ := rieulbieubSim_head M s2 (o :: r)
              rw [rieulbieubSim_cons_notCoda M '/' _ (by decide) (by decide), hm']
              exact tryTense_none_third onset tensed c '/' s2 _ hs2
          · obtain ⟨m', hm'⟩ := rieulbieubSim_head M s1 (s2 :: o :: r)
            rw [hm']
            exact tryTense_none_second onset tensed c s1 _ hs1
        · push_neg at hc
          exact tryTense_none_head onset tensed c _ hc.1 hc.2
      rw [hSim, reSub_cons_none c _ hnone, ih, hSim2]

/-- C5: the `rieulbieub` rule (regulation 25) equals one simultaneous pass
that replaces every occurrence of coda ᆲ/ᆴ ++ `/P` ++ onset ᄀ/ᄃ/ᄉ/ᄌ by
the coda and the tensed onset ᄁ/ᄄ/ᄊ/ᄍ (removing the tag) and leaves
every other part of the string unchanged. -/
theorem c5_rieulbieub_tensification (inp : List Char) (descriptive : Bool) :
    rieulbieub inp descriptive = rieulbieubSim tenseMap inp := by
  have e1 : reSub (tryTense 'ᄀ' 'ᄁ') inp = rieulbieubSim [('ᄀ', 'ᄁ')] inp := by
    have h := reSub_tense_sim 'ᄀ' 'ᄁ' (by decide) (by decide) [] (by simp) inp
    rw [rieulbieubSim_nil_map inp] at h
    simpa using h
  have e2 : reSub (tryTense 'ᄃ' 'ᄄ') (rieulbieubSim [('ᄀ', 'ᄁ')] inp) =
      rieulbieubSim [('ᄀ', 'ᄁ'), ('ᄃ', 'ᄄ')] inp := by
    have h := reSub_tense_sim 'ᄃ' 'ᄄ' (by decide) (by decide) [('ᄀ', 'ᄁ')] (by decide) inp
    simpa using h
  have e3 : reSub (tryTense 'ᄉ' 'ᄊ') (rieulbieubSim [('ᄀ', 'ᄁ'), ('ᄃ', 'ᄄ')] inp) =
      rieulbieubSim [('ᄀ', 'ᄁ'), ('ᄃ', 'ᄄ'), ('ᄉ', 'ᄊ')] inp := by
    have h := reSub_tense_sim 'ᄉ' 'ᄊ' (by decide) (by decide)
      [('ᄀ', 'ᄁ'), ('ᄃ', 'ᄄ')] (by decide) inp
    simpa using h
  have e4 : reSub (tryTense 'ᄌ' 'ᄍ')
      (rieulbieubSim [('ᄀ', 'ᄁ'), ('ᄃ', 'ᄄ'), ('ᄉ', 'ᄊ')] inp) =
      rieulbieubSim [('ᄀ', 'ᄁ'), ('ᄃ', 'ᄄ'), ('ᄉ', 'ᄊ'), ('ᄌ', 'ᄍ')] inp := by
    have h := reSub_tense_sim 'ᄌ' 'ᄍ' (by decide) (by decide)
      [('ᄀ', 'ᄁ'), ('ᄃ', 'ᄄ'), ('ᄉ', 'ᄊ')] (by decide) inp
    simpa using h
  show reSub (tryTense 'ᄌ' 'ᄍ')
      (reSub (tryTense 'ᄉ' 'ᄊ')
        (reSub (tryTense 'ᄃ' 'ᄄ')
          (reSub (tryTense 'ᄀ' 'ᄁ') inp))) = rieulbieubSim tenseMap inp
  rw [e1, e2, e3, e4]
  rfl
theorem hasSSJ_false_tail {x : Char} {m : List Char}
    (h : hasSlashSlashJ (x :: m) = false) : hasSlashSlashJ m = false := by
  match m with
  | [] => rfl
  | [y] => rfl
  | y :: z :: m' =>
      simp only [hasSlashSlashJ] at h
      split at h
      · exact absurd h (by decide)
      · exact h

theorem removeJTags_head_J : ∀ (t : List Char), (removeJTags t).head? = some 'J' →
    t.head? = some 'J' ∨ (t.head? = some '/' ∧ t.tail.head? = some 'J') := by
  intro t
  induction t using removeJTags.induct with
  | case1 => intro h; exact absurd h (by simp [removeJTags])
  | case2 c => intro h; left; simpa [removeJTags] using h
  | case3 a b r hab ih =>
      intro h
      obtain ⟨rfl, rfl⟩ := hab
      right
      exact ⟨rfl, rfl⟩
  | case4 a b r hab ih =>
      intro h
      left
      simp only [removeJTags, if_neg hab] at h
      simpa using h

theorem removeJTags_no_tag : ∀ (l : List Char), hasSlashSlashJ l = false →
    hasTagJ (removeJTags l) = false := by
  intro l
  induction l using removeJTags.induct with
  | case1 => intro _; rfl
  | case2 c => intro _; rfl
  | case3 a b r hab ih =>
      intro h
      rw [show removeJTags (a :: b :: r) = removeJTags r by
        simp only [removeJTags, if_pos hab]]
      exact ih (hasSSJ_false_tail (hasSSJ_false_tail h))
  | case4 a b r hab ih =>
      intro h
      rw [show removeJTags (a :: b :: r) = a :: removeJTags (b :: r) by
        simp only [removeJTags, if_neg hab]]
      have hbr : hasTagJ (removeJTags (b :: r)) = false := ih (hasSSJ_false_tail h)
      cases hm : removeJTags (b :: r) with
      | nil => rfl
      | cons y m' =>
          rw [hm] at hbr
          have hy : ¬(a = '/' ∧ y = 'J') := by
            rintro ⟨rfl, rfl⟩
            have hh := removeJTags_head_J (b :: r) (by rw [hm]; rfl)
            rcases hh with h1 | ⟨h2, h3⟩
            · have hb : b = 'J' := by simpa using h1
              exact hab ⟨rfl, hb⟩
            · have hb : b = '/' := by simpa using h2
              subst hb
              rcases r with _ | ⟨r0, r'⟩
              · simp at h3
              · have hr0 : r0 = 'J' := by simpa using h3
                subst hr0
                simp [hasSlashSlashJ] at h
          simp only [hasTagJ, if_neg hy]
          exact hbr

/-- C6, counterexample: the claim states the output of `josa_ui` never
contains `/J` for either flag.  With `descriptive = true` the tag survives
after any syllable other than 의, and with `descriptive = false` removing
the middle `/J` of `//JJ` juxtaposes a new `/J`. -/
theorem c6_counterexample :
    hasTagJ (josa_ui ['ᄂ', '/', 'J'] true) = true ∧
      hasTagJ (josa_ui ['/', '/', 'J', 'J'] false) = true := by decide

/-- C6 (amended): with `descriptive = false`, if the input contains no
occurrence of `//J`, then the output of `josa_ui` contains no occurrence of
the particle tag `/J`. -/
theorem c6_josa_ui_tag_removal (inp : List Char) (h : hasSlashSlashJ inp = false) :
    hasTagJ (josa_ui inp false) = false := by
  have e : josa_ui inp false = removeJTags inp := reSub_tryRemoveJ_eq inp
  rw [e]
  exact removeJTags_no_tag inp h

/-- Witness for the amended C6 at a concrete tagged string. -/
theorem c6_josa_ui_tag_removal_witness :
    hasSlashSlashJ ['ᄋ', 'ᅴ', '/', 'J'] = false ∧
      hasTagJ (josa_ui ['ᄋ', 'ᅴ', '/', 'J'] false) = false :=
  ⟨by decide, c6_josa_ui_tag_removal ['ᄋ', 'ᅴ', '/', 'J'] (by decide)⟩

theorem reSub_append_of_headNone (tm : List Char → Option (List Char × List Char)) :
    ∀ (a m : List Char), (∀ x ∈ a, ∀ m', tm (x :: m') = none) →
      reSub tm (a ++ m) = a ++ reSub tm m := by
  intro a
  induction a with
  | nil => intro m _; rfl
  | cons x a' ih =>
      intro m ha
      rw [List.cons_append, reSub_cons_none x _ (ha x (by simp) _),
        ih m (fun y hy m' => ha y (by simp [hy]) m'), List.cons_append]

theorem reSub_id_of_headNone (tm : List Char → Option (List Char × List Char))
    (l : List Char) (h : ∀ x ∈ l, ∀ m', tm (x :: m') = none) : reSub tm l = l := by
  have e := reSub_append_of_headNone tm l [] h
  simpa [reSub_nil] using e

theorem inert_sub {r big small : List Char}
    (hr : ∀ ch ∈ r, ch ∉ big) (hsub : small ⊆ big) : ∀ ch ∈ r, ch ∉ small :=
  fun ch hch hmem => hr ch hch (hsub hmem)

theorem tryJamo_none_fst (ctxs codas : List Char) (rep x : Char) (hx : x ∉ ctxs) :
    ∀ m, tryJamo ctxs codas rep (x :: m) = none := by
  intro m
  match m with
  | [] => rfl
  | [b] => rfl
  | b :: c :: m' =>
      simp only [tryJamo]
      rw [if_neg]
      rintro ⟨hmem, -⟩
      exact hx hmem

theorem tryJamo_none_snd (ctxs codas : List Char) (rep b : Char) (hb : b ∉ codas) :
    ∀ (x : Char) (m : List Char), tryJamo ctxs codas rep (x :: b :: m) = none := by
  intro x m
  match m with
  | [] => rfl
  | c :: m' =>
      simp only [tryJamo]
      rw [if_neg]
      rintro ⟨-, hmem, -⟩
      exact hb hmem

theorem tryJamo_match (ctxs codas : List Char) (rep x b : Char) (m : List Char)
    (hx : x ∈ ctxs) (hb : b ∈ codas) :
    tryJamo ctxs codas rep (x :: b :: 'ᄋ' :: m) = some ([x, rep], m) := by
  simp [tryJamo, hx, hb]

theorem tryJamo_consumes (ctxs codas : List Char) (rep : Char) :
    Consumes (tryJamo ctxs codas rep) := by
  intro l out r h
  match l with
  | [] => exact absurd h (by simp [tryJamo])
  | [a] => exact absurd h (by simp [tryJamo])
  | [a, b] => exact absurd h (by simp [tryJamo])
  | a :: b :: c :: m =>
      simp only [tryJamo] at h
      split at h
      · injection h with h'
        injection h' with ha hb
        subst hb
        simp only [List.length_cons]
        omega
      · exact absurd h (by simp)

theorem reSub_jamo_window (ctxs codas : List Char) (rep x b : Char) (r : List Char)
    (h1 : tryJamo ctxs codas rep (x :: b :: 'ᄋ' :: r) = none)
    (h2 : b ∉ ctxs)
    (hr_ctx : ∀ ch ∈ r, ch ∉ ctxs)
    (hr_cod : ∀ ch ∈ r, ch ∉ codas) :
    reSub (tryJamo ctxs codas rep) (x :: b :: 'ᄋ' :: r) = x :: b :: 'ᄋ' :: r := by
  have hid : reSub (tryJamo ctxs codas rep) r = r :=
    reSub_id_of_headNone _ r (fun ch hch m' => tryJamo_none_fst _ _ _ ch (hr_ctx ch hch) m')
  have h3 : tryJamo ctxs codas rep ('ᄋ' :: r) = none := by
    match r with
    | [] => rfl
    | r0 :: r' => exact tryJamo_none_snd ctxs codas rep r0 (hr_cod r0 (by simp)) 'ᄋ' r'
  rw [reSub_cons_none x _ h1,
    reSub_cons_none b _ (tryJamo_none_fst ctxs codas rep b h2 _),
    reSub_cons_none 'ᄋ' _ h3, hid]

theorem reSub_jamo_hit (ctxs codas : List Char) (rep x b : Char) (r : List Char)
    (hx : x ∈ ctxs) (hb : b ∈ codas)
    (hr_ctx : ∀ ch ∈ r, ch ∉ ctxs) :
    reSub (tryJamo ctxs codas rep) (x :: b :: 'ᄋ' :: r) = x :: rep :: r := by
  have hid : reSub (tryJamo ctxs codas rep) r = r :=
    reSub_id_of_headNone _ r (fun ch hch m' => tryJamo_none_fst _ _ _ ch (hr_ctx ch hch) m')
  rw [reSub_cons_some (tryJamo_consumes ctxs codas rep) x _ _ _
    (tryJamo_match ctxs codas rep x b r hx hb), hid]
  rfl

theorem reSub_jamo_post (ctxs codas : List Char) (rep' x q : Char) (r : List Char)
    (h1 : tryJamo ctxs codas rep' (x :: q :: r) = none)
    (hq : q ∉ ctxs)
    (hr_ctx : ∀ ch ∈ r, ch ∉ ctxs) :
    reSub (tryJamo ctxs codas rep') (x :: q :: r) = x :: q :: r := by
  have hid : reSub (tryJamo ctxs codas rep') r = r :=
    reSub_id_of_headNone _ r (fun ch hch m' => tryJamo_none_fst _ _ _ ch (hr_ctx ch hch) m')
  rw [reSub_cons_none x _ h1, reSub_cons_none q _ (tryJamo_none_fst _ _ _ q hq _), hid]

theorem jamo_append_inert (a m : List Char)
    (ha : ∀ ch ∈ a, ch ∉ (['ᄀ', 'ᄋ', 'ᅳ'] : List Char)) :
    jamo (a ++ m) false = a ++ jamo m false := by
  have h1 : ∀ (ctxs codas : List Char) (rep : Char), ctxs ⊆ ['ᄀ', 'ᄋ', 'ᅳ'] →
      ∀ m', reSub (tryJamo ctxs codas rep) (a ++ m') =
        a ++ reSub (tryJamo ctxs codas rep) m' := by
    intro ctxs codas rep hsub m'
    exact reSub_append_of_headNone _ a m' (fun ch hch m'' =>
      tryJamo_none_fst _ _ _ ch (fun hmem => ha ch hch (hsub hmem)) m'')
  show reSub (tryJamo ['ᄋ', 'ᅳ'] ['ᇁ'] 'ᄇ')
      (reSub (tryJamo ['ᄋ', 'ᅳ'] ['ᆿ'] 'ᄀ')
        (reSub (tryJamo ['ᄋ', 'ᅳ'] ['ᆽ', 'ᆾ', 'ᇀ', 'ᇂ'] 'ᄉ')
          (reSub (tryJamo ['ᄀ', 'ᅳ'] ['ᆮ'] 'ᄉ') (a ++ m)))) = _
  rw [h1 _ _ _ (by decide) m, h1 _ _ _ (by decide) _, h1 _ _ _ (by decide) _,
    h1 _ _ _ (by decide) _]
  rfl
theorem jamo_core1 (r : List Char) (x : Char) (hx : x = 'ᄀ' ∨ x = 'ᅳ')
    (hr : ∀ ch ∈ r, ch ∉ (['ᄀ', 'ᄋ', 'ᅳ', 'ᆮ', 'ᆽ', 'ᆾ', 'ᇀ', 'ᇂ', 'ᆿ', 'ᇁ'] : List Char)) :
    jamo (x :: 'ᆮ' :: 'ᄋ' :: r) false = x :: 'ᄉ' :: r := by
  have hxm : x ∈ (['ᄀ', 'ᅳ'] : List Char) := by rcases hx with rfl | rfl <;> decide
  have p1 : reSub (tryJamo ['ᄀ', 'ᅳ'] ['ᆮ'] 'ᄉ') (x :: 'ᆮ' :: 'ᄋ' :: r) = x :: 'ᄉ' :: r :=
    reSub_jamo_hit _ _ _ x 'ᆮ' r hxm (by decide) (inert_sub hr (by decide))
  have p2 : reSub (tryJamo ['ᄋ', 'ᅳ'] ['ᆽ', 'ᆾ', 'ᇀ', 'ᇂ'] 'ᄉ') (x :: 'ᄉ' :: r) =
      x :: 'ᄉ' :: r :=
    reSub_jamo_post _ _ _ x 'ᄉ' r (tryJamo_none_snd _ _ _ 'ᄉ' (by decide) x _) (by decide)
      (inert_sub hr (by decide))
  have p3 : reSub (tryJamo ['ᄋ', 'ᅳ'] ['ᆿ'] 'ᄀ') (x :: 'ᄉ' :: r) = x :: 'ᄉ' :: r :=
    reSub_jamo_post _ _ _ x 'ᄉ' r (tryJamo_none_snd _ _ _ 'ᄉ' (by decide) x _) (by decide)
      (inert_sub hr (by decide))
  have p4 : reSub (tryJamo ['ᄋ', 'ᅳ'] ['ᇁ'] 'ᄇ') (x :: 'ᄉ' :: r) = x :: 'ᄉ' :: r :=
    reSub_jamo_post _ _ _ x 'ᄉ' r (tryJamo_none_snd _ _ _ 'ᄉ' (by decide) x _) (by decide)
      (inert_sub hr (by decide))
  show reSub (tryJamo ['ᄋ', 'ᅳ'] ['ᇁ'] 'ᄇ')
      (reSub (tryJamo ['ᄋ', 'ᅳ'] ['ᆿ'] 'ᄀ')
        (reSub (tryJamo ['ᄋ', 'ᅳ'] ['ᆽ', 'ᆾ', 'ᇀ', 'ᇂ'] 'ᄉ')
          (reSub (tryJamo ['ᄀ', 'ᅳ'] ['ᆮ'] 'ᄉ') (x :: 'ᆮ' :: 'ᄋ' :: r)))) = _
  rw [p1, p2, p3, p4]

theorem jamo_core2 (r : List Char) (x b : Char)
    (hx : x = 'ᄋ' ∨ x = 'ᅳ') (hb : b = 'ᆽ' ∨ b = 'ᆾ' ∨ b = 'ᇀ' ∨ b = 'ᇂ')
    (hr : ∀ ch ∈ r, ch ∉ (['ᄀ', 'ᄋ', 'ᅳ', 'ᆮ', 'ᆽ', 'ᆾ', 'ᇀ', 'ᇂ', 'ᆿ', 'ᇁ'] : List Char)) :
    jamo (x :: b :: 'ᄋ' :: r) false = x :: 'ᄉ' :: r := by
  have hxm : x ∈ (['ᄋ', 'ᅳ'] : List Char) := by rcases hx with rfl | rfl <;> decide
  have hbm : b ∈ (['ᆽ', 'ᆾ', 'ᇀ', 'ᇂ'] : List Char) := by
    rcases hb with rfl | rfl | rfl | rfl <;> decide
  have hbn1 : b ∉ (['ᆮ'] : List Char) := by rcases hb with rfl | rfl | rfl | rfl <;> decide
  have hbn2 : b ∉ (['ᄀ', 'ᅳ'] : List Char) := by rcases hb with rfl | rfl | rfl | rfl <;> decide
  have p1 : reSub (tryJamo ['ᄀ', 'ᅳ'] ['ᆮ'] 'ᄉ') (x :: b :: 'ᄋ' :: r) =
      x :: b :: 'ᄋ' :: r :=
    reSub_jamo_window _ _ _ x b r (tryJamo_none_snd _ _ _ b hbn1 x _) hbn2
      (inert_sub hr (by decide)) (inert_sub hr (by decide))
  have p2 : reSub (tryJamo ['ᄋ', 'ᅳ'] ['ᆽ', 'ᆾ', 'ᇀ', 'ᇂ'] 'ᄉ') (x :: b :: 'ᄋ' :: r) =
      x :: 'ᄉ' :: r :=
    reSub_jamo_hit _ _ _ x b r hxm hbm (inert_sub hr (by decide))
  have p3 : reSub (tryJamo ['ᄋ', 'ᅳ'] ['ᆿ'] 'ᄀ') (x :: 'ᄉ' :: r) = x :: 'ᄉ' :: r :=
    reSub_jamo_post _ _ _ x 'ᄉ' r (tryJamo_none_snd _ _ _ 'ᄉ' (by decide) x _) (by decide)
      (inert_sub hr (by decide))
  have p4 : reSub (tryJamo ['ᄋ', 'ᅳ'] ['ᇁ'] 'ᄇ') (x :: 'ᄉ' :: r) = x :: 'ᄉ' :: r :=
    reSub_jamo_post _ _ _ x 'ᄉ' r (tryJamo_none_snd _ _ _ 'ᄉ' (by decide) x _) (by decide)
      (inert_sub hr (by decide))
  show reSub (tryJamo ['ᄋ', 'ᅳ'] ['ᇁ'] 'ᄇ')
      (reSub (tryJamo ['ᄋ', 'ᅳ'] ['ᆿ'] 'ᄀ')
        (reSub (tryJamo ['ᄋ', 'ᅳ'] ['ᆽ', 'ᆾ', 'ᇀ', 'ᇂ'] 'ᄉ')
          (reSub (tryJamo ['ᄀ', 'ᅳ'] ['ᆮ'] 'ᄉ') (x :: b :: 'ᄋ' :: r)))) = _
  rw [p1, p2, p3, p4]

theorem jamo_core3 (r : List Char) (x : Char) (hx : x = 'ᄋ' ∨ x = 'ᅳ')
    (hr : ∀ ch ∈ r, ch ∉ (['ᄀ', 'ᄋ', 'ᅳ', 'ᆮ', 'ᆽ', 'ᆾ', 'ᇀ', 'ᇂ', 'ᆿ', 'ᇁ'] : List Char)) :
    jamo (x :: 'ᆿ' :: 'ᄋ' :: r) false = x :: 'ᄀ' :: r := by
  have hxm : x ∈ (['ᄋ', 'ᅳ'] : List Char) := by rcases hx with rfl | rfl <;> decide
  have p1 : reSub (tryJamo ['ᄀ', 'ᅳ'] ['ᆮ'] 'ᄉ') (x :: 'ᆿ' :: 'ᄋ' :: r) =
      x :: 'ᆿ' :: 'ᄋ' :: r :=
    reSub_jamo_window _ _ _ x 'ᆿ' r (tryJamo_none_snd _ _ _ 'ᆿ' (by decide) x _) (by decide)
      (inert_sub hr (by decide)) (inert_sub hr (by decide))
  have p2 : reSub (tryJamo ['ᄋ', 'ᅳ'] ['ᆽ', 'ᆾ', 'ᇀ', 'ᇂ'] 'ᄉ') (x :: 'ᆿ' :: 'ᄋ' :: r) =
      x :: 'ᆿ' :: 'ᄋ' :: r :=
    reSub_jamo_window _ _ _ x 'ᆿ' r (tryJamo_none_snd _ _ _ 'ᆿ' (by decide) x _) (by decide)
      (inert_sub hr (by decide)) (inert_sub hr (by decide))
  have p3 : reSub (tryJamo ['ᄋ', 'ᅳ'] ['ᆿ'] 'ᄀ') (x :: 'ᆿ' :: 'ᄋ' :: r) = x :: 'ᄀ' :: r :=
    reSub_jamo_hit _ _ _ x 'ᆿ' r hxm (by decide) (inert_sub hr (by decide))
  have p4 : reSub (tryJamo ['ᄋ', 'ᅳ'] ['ᇁ'] 'ᄇ') (x :: 'ᄀ' :: r) = x :: 'ᄀ' :: r :=
    reSub_jamo_post _ _ _ x 'ᄀ' r (tryJamo_none_snd _ _ _ 'ᄀ' (by decide) x _) (by decide)
      (inert_sub hr (by decide))
  show reSub (tryJamo ['ᄋ', 'ᅳ'] ['ᇁ'] 'ᄇ')
      (reSub (tryJamo ['ᄋ', 'ᅳ'] ['ᆿ'] 'ᄀ')
        (reSub (tryJamo ['ᄋ', 'ᅳ'] ['ᆽ', 'ᆾ', 'ᇀ', 'ᇂ'] 'ᄉ')
          (reSub (tryJamo ['ᄀ', 'ᅳ'] ['ᆮ'] 'ᄉ') (x :: 'ᆿ' :: 'ᄋ' :: r)))) = _
  rw [p1, p2, p3, p4]

theorem jamo_core4 (r : List Char) (x : Char) (hx : x = 'ᄋ' ∨ x = 'ᅳ')
    (hr : ∀ ch ∈ r, ch ∉ (['ᄀ', 'ᄋ', 'ᅳ', 'ᆮ', 'ᆽ', 'ᆾ', 'ᇀ', 'ᇂ', 'ᆿ', 'ᇁ'] : List Char)) :
    jamo (x :: 'ᇁ' :: 'ᄋ' :: r) false = x :: 'ᄇ' :: r := by
  have hxm : x ∈ (['ᄋ', 'ᅳ'] : List Char) := by rcases hx with rfl | rfl <;> decide
  have p1 : reSub (tryJamo ['ᄀ', 'ᅳ'] ['ᆮ'] 'ᄉ') (x :: 'ᇁ' :: 'ᄋ' :: r) =
      x :: 'ᇁ' :: 'ᄋ' :: r :=
    reSub_jamo_window _ _ _ x 'ᇁ' r (tryJamo_none_snd _ _ _ 'ᇁ' (by decide) x _) (by decide)
      (inert_sub hr (by decide)) (inert_sub hr (by decide))
  have p2 : reSub (tryJamo ['ᄋ', 'ᅳ'] ['ᆽ', 'ᆾ', 'ᇀ', 'ᇂ'] 'ᄉ') (x :: 'ᇁ' :: 'ᄋ' :: r) =
      x :: 'ᇁ' :: 'ᄋ' :: r :=
    reSub_jamo_window _ _ _ x 'ᇁ' r (tryJamo_none_snd _ _ _ 'ᇁ' (by decide) x _) (by decide)
      (inert_sub hr (by decide)) (inert_sub hr (by decide))
  have p3 : reSub (tryJamo ['ᄋ', 'ᅳ'] ['ᆿ'] 'ᄀ') (x :: 'ᇁ' :: 'ᄋ' :: r) =
      x :: 'ᇁ' :: 'ᄋ' :: r :=
    reSub_jamo_window _ _ _ x 'ᇁ' r (tryJamo_none_snd _ _ _ 'ᇁ' (by decide) x _) (by decide)
      (inert_sub hr (by decide)) (inert_sub hr (by decide))
  have p4 : reSub (tryJamo ['ᄋ', 'ᅳ'] ['ᇁ'] 'ᄇ') (x :: 'ᇁ' :: 'ᄋ' :: r) = x :: 'ᄇ' :: r :=
    reSub_jamo_hit _ _ _ x 'ᇁ' r hxm (by decide) (inert_sub hr (by decide))
  show reSub (tryJamo ['ᄋ', 'ᅳ'] ['ᇁ'] 'ᄇ')
      (reSub (tryJamo ['ᄋ', 'ᅳ'] ['ᆿ'] 'ᄀ')
        (reSub (tryJamo ['ᄋ', 'ᅳ'] ['ᆽ', 'ᆾ', 'ᇀ', 'ᇂ'] 'ᄉ')
          (reSub (tryJamo ['ᄀ', 'ᅳ'] ['ᆮ'] 'ᄉ') (x :: 'ᇁ' :: 'ᄋ' :: r)))) = _
  rw [p1, p2, p3, p4]

/-- C7, counterexample: the claim says the rule fires after the vowel ㅡ/ㅣ.
After the vowel ᅵ (ㅣ) nothing fires: the source classes `[그]` and `[으]`
contain only ᄀ/ᅳ and ᄋ/ᅳ.  The jamo string ᅵᆽᄋ is left unchanged,
while the claim predicts ᅵᄉ. -/
theorem c7_counterexample :
    jamo ['ᅵ', 'ᆽ', 'ᄋ'] false = ['ᅵ', 'ᆽ', 'ᄋ'] ∧
      (['ᅵ', 'ᆽ', 'ᄋ'] : List Char) ≠ ['ᅵ', 'ᄉ'] := by decide

/-- C7 (amended): the `jamo` rule (regulation 16) rewrites coda + null
onset ᄋ occurring immediately after ᄀ or ᅳ (for coda ᆮ) and immediately
after ᄋ or ᅳ (for codas ᆽᆾᇀᇂᆿᇁ) — the replacement is ᄉ, ᄉ, ᄀ, ᄇ
respectively — and the vowel ㅣ never triggers it.  The left and right
contexts `a`, `r` are restricted to characters the rule never inspects. -/
theorem c7_jamo_contexts (a r : List Char) (x b : Char)
    (ha : ∀ ch ∈ a, ch ∉ (['ᄀ', 'ᄋ', 'ᅳ'] : List Char))
    (hr : ∀ ch ∈ r, ch ∉ (['ᄀ', 'ᄋ', 'ᅳ', 'ᆮ', 'ᆽ', 'ᆾ', 'ᇀ', 'ᇂ', 'ᆿ', 'ᇁ'] : List Char)) :
    ((x = 'ᄀ' ∨ x = 'ᅳ') → b = 'ᆮ' →
      jamo (a ++ x :: b :: 'ᄋ' :: r) false = a ++ x :: 'ᄉ' :: r) ∧
    ((x = 'ᄋ' ∨ x = 'ᅳ') → (b = 'ᆽ' ∨ b = 'ᆾ' ∨ b = 'ᇀ' ∨ b = 'ᇂ') →
      jamo (a ++ x :: b :: 'ᄋ' :: r) false = a ++ x :: 'ᄉ' :: r) ∧
    ((x = 'ᄋ' ∨ x = 'ᅳ') → b = 'ᆿ' →
      jamo (a ++ x :: b :: 'ᄋ' :: r) false = a ++ x :: 'ᄀ' :: r) ∧
    ((x = 'ᄋ' ∨ x = 'ᅳ') → b = 'ᇁ' →
      jamo (a ++ x :: b :: 'ᄋ' :: r) false = a ++ x :: 'ᄇ' :: r) := by
  refine ⟨fun hx hb => ?_, fun hx hb => ?_, fun hx hb => ?_, fun hx hb => ?_⟩
  · subst hb
    rw [jamo_append_inert a _ ha, jamo_core1 r x hx hr]
  · rw [jamo_append_inert a _ ha, jamo_core2 r x b hx hb hr]
  · subst hb
    rw [jamo_append_inert a _ ha, jamo_core3 r x hx hr]
  · subst hb
    rw [jamo_append_inert a _ ha, jamo_core4 r x hx hr]

/-- Witness for the amended C7: 으 + ᆽ + ᄋ becomes 으 + ᄉ. -/
theorem c7_jamo_contexts_witness :
    jamo ['ᅳ', 'ᆽ', 'ᄋ'] false = ['ᅳ', 'ᄉ'] :=
  (c7_jamo_contexts [] [] 'ᅳ' 'ᆽ' (by simp) (by simp)).2.1 (Or.inr rfl)
    (Or.inl rfl)

theorem tryBalb1_none_fst (x : Char) (hx : x ≠ 'ᄇ') : ∀ m, tryBalb1 (x :: m) = none := by
  intro m
  match m with
  | [] => rfl
  | [b] => rfl
  | b :: c :: rest => simp [tryBalb1, hx]

theorem tryBalb2_none_fst (x : Char) (hx : x ≠ 'ᄂ') : ∀ m, tryBalb2 (x :: m) = none := by
  intro m
  match m with
  | [] => rfl
  | [b] => rfl
  | [b, c] => rfl
  | [b, c, d] => rfl
  | b :: c :: d :: e :: r => simp [tryBalb2, hx]

theorem tryBalb1_match_end : tryBalb1 ['ᄇ', 'ᅡ', 'ᆲ'] = some (['ᄇ', 'ᅡ', 'ᆸ'], []) := rfl

theorem tryBalb1_match_mid (d : Char) (r : List Char) (hd1 : d ≠ 'ᄋ') (hd2 : d ≠ 'ᄒ') :
    tryBalb1 ('ᄇ' :: 'ᅡ' :: 'ᆲ' :: d :: r) = some (['ᄇ', 'ᅡ', 'ᆸ', d], r) := by
  simp [tryBalb1, hd1, hd2]

theorem tryBalb1_none_mid (d : Char) (r : List Char) (hd : d = 'ᄋ' ∨ d = 'ᄒ') :
    tryBalb1 ('ᄇ' :: 'ᅡ' :: 'ᆲ' :: d :: r) = none := by
  rcases hd with rfl | rfl <;> simp [tryBalb1]

theorem tryBalb2_match (d : Char) (r : List Char)
    (hd : d = 'ᄌ' ∨ d = 'ᄍ' ∨ d = 'ᄃ' ∨ d = 'ᄄ') :
    tryBalb2 ('ᄂ' :: 'ᅥ' :: 'ᆲ' :: d :: 'ᅮ' :: r) = some (['ᄂ', 'ᅥ', 'ᆸ', d, 'ᅮ'], r) := by
  rcases hd with rfl | rfl | rfl | rfl <;> simp [tryBalb2]

theorem tryBalb1_consumes : Consumes tryBalb1 := by
  intro l out r h
  match l with
  | [] => exact absurd h (by simp [tryBalb1])
  | [a] => exact absurd h (by simp [tryBalb1])
  | [a, b] => exact absurd h (by simp [tryBalb1])
  | [a, b, c] =>
      simp only [tryBalb1] at h
      split at h
      · injection h with h'
        injection h' with h1 h2
        subst h2
        simp
      · exact absurd h (by simp)
  | a :: b :: c :: d :: r' =>
      simp only [tryBalb1] at h
      split at h
      · split at h
        · injection h with h'
          injection h' with h1 h2
          subst h2
          simp only [List.length_cons]
          omega
        · exact absurd h (by simp)
      · exact absurd h (by simp)

theorem tryBalb2_consumes : Consumes tryBalb2 := by
  intro l out r h
  match l with
  | [] => exact absurd h (by simp [tryBalb2])
  | [a] => exact absurd h (by simp [tryBalb2])
  | [a, b] => exact absurd h (by simp [tryBalb2])
  | [a, b, c] => exact absurd h (by simp [tryBalb2])
  | [a, b, c, d] => exact absurd h (by simp [tryBalb2])
  | a :: b :: c :: d :: e :: r' =>
      simp only [tryBalb2] at h
      split at h
      · injection h with h'
        injection h' with h1 h2
        subst h2
        simp only [List.length_cons]
        omega
      · exact absurd h (by simp)

theorem balb_case_end (a : List Char) (ha : ∀ ch ∈ a, ch ∉ (['ᄇ', 'ᄂ'] : List Char)) :
    balb (a ++ ['ᄇ', 'ᅡ', 'ᆲ']) false = a ++ ['ᄇ', 'ᅡ', 'ᆸ'] := by
  have ha1 : ∀ x ∈ a, ∀ m', tryBalb1 (x :: m') = none :=
    fun x hx m' => tryBalb1_none_fst x (fun he => ha x hx (by simp [he])) m'
  have e1 : reSub tryBalb1 (a ++ ['ᄇ', 'ᅡ', 'ᆲ']) = a ++ ['ᄇ', 'ᅡ', 'ᆸ'] := by
    rw [reSub_append_of_headNone tryBalb1 a _ ha1,
      show reSub tryBalb1 ['ᄇ', 'ᅡ', 'ᆲ'] = ['ᄇ', 'ᅡ', 'ᆸ'] from by decide]
  have ha2 : ∀ x ∈ a ++ ['ᄇ', 'ᅡ', 'ᆸ'], ∀ m', tryBalb2 (x :: m') = none := by
    intro x hx m'
    rcases List.mem_append.1 hx with h | h
    · exact tryBalb2_none_fst x (fun he => ha x h (by simp [he])) m'
    · simp only [List.mem_cons, List.not_mem_nil, or_false] at h
      rcases h with rfl | rfl | rfl
      · exact tryBalb2_none_fst _ (by decide) m'
      · exact tryBalb2_none_fst _ (by decide) m'
      · exact tryBalb2_none_fst _ (by decide) m'
  show reSub tryBalb2 (reSub tryBalb1 (a ++ ['ᄇ', 'ᅡ', 'ᆲ'])) = _
  rw [e1, reSub_id_of_headNone tryBalb2 _ ha2]

theorem balb_case_mid (a r : List Char) (d : Char)
    (ha : ∀ ch ∈ a, ch ∉ (['ᄇ', 'ᄂ'] : List Char))
    (hr : ∀ ch ∈ r, ch ∉ (['ᄇ', 'ᄂ'] : List Char))
    (hd : d ∉ (['ᄋ', 'ᄒ', 'ᄂ'] : List Char)) :
    balb (a ++ 'ᄇ' :: 'ᅡ' :: 'ᆲ' :: d :: r) false = a ++ 'ᄇ' :: 'ᅡ' :: 'ᆸ' :: d :: r := by
  have hd1 : d ≠ 'ᄋ' := fun he => hd (by simp [he])
  have hd2 : d ≠ 'ᄒ' := fun he => hd (by simp [he])
  have hdn : d ≠ 'ᄂ' := fun he => hd (by simp [he])
  have ha1 : ∀ x ∈ a, ∀ m', tryBalb1 (x :: m') = none :=
    fun x hx m' => tryBalb1_none_fst x (fun he => ha x hx (by simp [he])) m'
  have hr1 : reSub tryBalb1 r = r :=
    reSub_id_of_headNone tryBalb1 r
      (fun x hx m' => tryBalb1_none_fst x (fun he => hr x hx (by simp [he])) m')
  have e1 : reSub tryBalb1 (a ++ 'ᄇ' :: 'ᅡ' :: 'ᆲ' :: d :: r) =
      a ++ 'ᄇ' :: 'ᅡ' :: 'ᆸ' :: d :: r := by
    rw [reSub_append_of_headNone tryBalb1 a _ ha1,
      reSub_cons_some tryBalb1_consumes 'ᄇ' ('ᅡ' :: 'ᆲ' :: d :: r) ['ᄇ', 'ᅡ', 'ᆸ', d] r
        (tryBalb1_match_mid d r hd1 hd2), hr1]
    rfl
  have ha2 : ∀ x ∈ a ++ 'ᄇ' :: 'ᅡ' :: 'ᆸ' :: d :: r, ∀ m', tryBalb2 (x :: m') = none := by
    intro x hx m'
    rcases List.mem_append.1 hx with h | h
    · exact tryBalb2_none_fst x (fun he => ha x h (by simp [he])) m'
    · simp only [List.mem_cons] at h
      rcases h with rfl | rfl | rfl | rfl | h
      · exact tryBalb2_none_fst _ (by decide) m'
      · exact tryBalb2_none_fst _ (by decide) m'
      · exact tryBalb2_none_fst _ (by decide) m'
      · exact tryBalb2_none_fst _ hdn m'
      · exact tryBalb2_none_fst x (fun he => hr x h (by simp [he])) m'
  show reSub tryBalb2 (reSub tryBalb1 (a ++ 'ᄇ' :: 'ᅡ' :: 'ᆲ' :: d :: r)) = _
  rw [e1, reSub_id_of_headNone tryBalb2 _ ha2]

theorem balb_case_unchanged (a r : List Char) (d : Char)
    (ha : ∀ ch ∈ a, ch ∉ (['ᄇ', 'ᄂ'] : List Char))
    (hr : ∀ ch ∈ r, ch ∉ (['ᄇ', 'ᄂ'] : List Char))
    (hd : d = 'ᄋ' ∨ d = 'ᄒ') :
    balb (a ++ 'ᄇ' :: 'ᅡ' :: 'ᆲ' :: d :: r) false = a ++ 'ᄇ' :: 'ᅡ' :: 'ᆲ' :: d :: r := by
  have ha1 : ∀ x ∈ a, ∀ m', tryBalb1 (x :: m') = none :=
    fun x hx m' => tryBalb1_none_fst x (fun he => ha x hx (by simp [he])) m'
  have hr1 : reSub tryBalb1 r = r :=
    reSub_id_of_headNone tryBalb1 r
      (fun x hx m' => tryBalb1_none_fst x (fun he => hr x hx (by simp [he])) m')
  have hdb : d ≠ 'ᄇ' := by rcases hd with rfl | rfl <;> decide
  have e1 : reSub tryBalb1 (a ++ 'ᄇ' :: 'ᅡ' :: 'ᆲ' :: d :: r) =
      a ++ 'ᄇ' :: 'ᅡ' :: 'ᆲ' :: d :: r := by
    rw [reSub_append_of_headNone tryBalb1 a _ ha1,
      reSub_cons_none 'ᄇ' ('ᅡ' :: 'ᆲ' :: d :: r) (tryBalb1_none_mid d r hd),
      reSub_cons_none 'ᅡ' ('ᆲ' :: d :: r) (tryBalb1_none_fst 'ᅡ' (by decide) _),
      reSub_cons_none 'ᆲ' (d :: r) (tryBalb1_none_fst 'ᆲ' (by decide) _),
      reSub_cons_none d r (tryBalb1_none_fst d hdb r), hr1]
  have ha2 : ∀ x ∈ a ++ 'ᄇ' :: 'ᅡ' :: 'ᆲ' :: d :: r, ∀ m', tryBalb2 (x :: m') = none := by
    intro x hx m'
    rcases List.mem_append.1 hx with h | h
    · exact tryBalb2_none_fst x (fun he => ha x h (by simp [he])) m'
    · simp only [List.mem_cons] at h
      rcases h with rfl | rfl | rfl | rfl | h
      · exact tryBalb2_none_fst _ (by decide) m'
      · exact tryBalb2_none_fst _ (by decide) m'
      · exact tryBalb2_none_fst _ (by decide) m'
      · exact tryBalb2_none_fst _ (by rcases hd with rfl | rfl <;> decide) m'
      · exact tryBalb2_none_fst x (fun he => hr x h (by simp [he])) m'
  show reSub tryBalb2 (reSub tryBalb1 (a ++ 'ᄇ' :: 'ᅡ' :: 'ᆲ' :: d :: r)) = _
  rw [e1, reSub_id_of_headNone tryBalb2 _ ha2]

theorem balb_case_neolb (a r : List Char) (d : Char)
    (ha : ∀ ch ∈ a, ch ∉ (['ᄇ', 'ᄂ'] : List Char))
    (hr : ∀ ch ∈ r, ch ∉ (['ᄇ', 'ᄂ'] : List Char))
    (hd : d = 'ᄌ' ∨ d = 'ᄍ' ∨ d = 'ᄃ' ∨ d = 'ᄄ') :
    balb (a ++ 'ᄂ' :: 'ᅥ' :: 'ᆲ' :: d :: 'ᅮ' :: r) false =
      a ++ 'ᄂ' :: 'ᅥ' :: 'ᆸ' :: d :: 'ᅮ' :: r := by
  have e1 : reSub tryBalb1 (a ++ 'ᄂ' :: 'ᅥ' :: 'ᆲ' :: d :: 'ᅮ' :: r) =
      a ++ 'ᄂ' :: 'ᅥ' :: 'ᆲ' :: d :: 'ᅮ' :: r := by
    refine reSub_id_of_headNone tryBalb1 _ ?_
    intro x hx m'
    rcases List.mem_append.1 hx with h | h
    · exact tryBalb1_none_fst x (fun he => ha x h (by simp [he])) m'
    · simp only [List.mem_cons] at h
      rcases h with rfl | rfl | rfl | rfl | rfl | h
      · exact tryBalb1_none_fst _ (by decide) m'
      · exact tryBalb1_none_fst _ (by decide) m'
      · exact tryBalb1_none_fst _ (by decide) m'
      · exact tryBalb1_none_fst _ (by rcases hd with rfl | rfl | rfl | rfl <;> decide) m'
      · exact tryBalb1_none_fst _ (by decide) m'
      · exact tryBalb1_none_fst x (fun he => hr x h (by simp [he])) m'
  have ha2 : ∀ x ∈ a, ∀ m', tryBalb2 (x :: m') = none :=
    fun x hx m' => tryBalb2_none_fst x (fun he => ha x hx (by simp [he])) m'
  have hr2 : reSub tryBalb2 r = r :=
    reSub_id_of_headNone tryBalb2 r
      (fun x hx m' => tryBalb2_none_fst x (fun he => hr x hx (by simp [he])) m')
  show reSub tryBalb2 (reSub tryBalb1 (a ++ 'ᄂ' :: 'ᅥ' :: 'ᆲ' :: d :: 'ᅮ' :: r)) = _
  rw [e1, reSub_append_of_headNone tryBalb2 a _ ha2,
    reSub_cons_some tryBalb2_consumes 'ᄂ' ('ᅥ' :: 'ᆲ' :: d :: 'ᅮ' :: r)
      ['ᄂ', 'ᅥ', 'ᆸ', d, 'ᅮ'] r (tryBalb2_match d r hd), hr2]
  rfl

theorem balb_inert (inp : List Char)
    (h : ∀ ch ∈ inp, ch ∉ (['ᄇ', 'ᄂ'] : List Char)) : balb inp false = inp := by
  have e1 : reSub tryBalb1 inp = inp :=
    reSub_id_of_headNone tryBalb1 inp
      (fun x hx m' => tryBalb1_none_fst x (fun he => h x hx (by simp [he])) m')
  show reSub tryBalb2 (reSub tryBalb1 inp) = inp
  rw [e1]
  exact reSub_id_of_headNone tryBalb2 inp
    (fun x hx m' => tryBalb2_none_fst x (fun he => h x hx (by simp [he])) m')

/-- C8, counterexample: the claim says coda ㄼ of 밟 is pronounced ㄱ before
a consonant; the source replacement is `\1ᆸ\2`, so the coda becomes ᆸ (ㅂ),
not ㄱ: `balb` maps 밟 (jamo 밟) to 밥 (밥), not to 박/바ㄱ. -/
theorem c8_counterexample :
    balb ['ᄇ', 'ᅡ', 'ᆲ'] false = ['ᄇ', 'ᅡ', 'ᆸ'] ∧
      (['ᄇ', 'ᅡ', 'ᆸ'] : List Char) ≠ ['ᄇ', 'ᅡ', 'ᆨ'] ∧
      (['ᄇ', 'ᅡ', 'ᆸ'] : List Char) ≠ ['ᄇ', 'ᅡ', 'ㄱ'] := by decide

/-- C8 (amended): `balb` encodes the 밟/넓 lexical exceptions: coda ᆲ of
바+ᆲ becomes ᆸ at end of string or before a character other than ᄋ/ᄒ
(and stays ᆲ before ᄋ/ᄒ), coda ᆲ of 너+ᆲ becomes ᆸ before ᄌ/ᄍ/ᄃ/ᄄ + ᅮ,
and a string containing none of the trigger onsets ᄇ/ᄂ is left unchanged.
Contexts `a`, `r` are restricted to characters the rule never inspects. -/
theorem c8_balb_exceptions (a r : List Char) (d : Char)
    (ha : ∀ ch ∈ a, ch ∉ (['ᄇ', 'ᄂ'] : List Char))
    (hr : ∀ ch ∈ r, ch ∉ (['ᄇ', 'ᄂ'] : List Char)) :
    (balb (a ++ ['ᄇ', 'ᅡ', 'ᆲ']) false = a ++ ['ᄇ', 'ᅡ', 'ᆸ']) ∧
    (d ∉ (['ᄋ', 'ᄒ', 'ᄂ'] : List Char) →
      balb (a ++ 'ᄇ' :: 'ᅡ' :: 'ᆲ' :: d :: r) false = a ++ 'ᄇ' :: 'ᅡ' :: 'ᆸ' :: d :: r) ∧
    ((d = 'ᄋ' ∨ d = 'ᄒ') →
      balb (a ++ 'ᄇ' :: 'ᅡ' :: 'ᆲ' :: d :: r) false = a ++ 'ᄇ' :: 'ᅡ' :: 'ᆲ' :: d :: r) ∧
    ((d = 'ᄌ' ∨ d = 'ᄍ' ∨ d = 'ᄃ' ∨ d = 'ᄄ') →
      balb (a ++ 'ᄂ' :: 'ᅥ' :: 'ᆲ' :: d :: 'ᅮ' :: r) false =
        a ++ 'ᄂ' :: 'ᅥ' :: 'ᆸ' :: d :: 'ᅮ' :: r) ∧
    (∀ inp : List Char, (∀ ch ∈ inp, ch ∉ (['ᄇ', 'ᄂ'] : List Char)) →
      balb inp false = inp) :=
  ⟨balb_case_end a ha, fun hd => balb_case_mid a r d ha hr hd,
   fun hd => balb_case_unchanged a r d ha hr hd,
   fun hd => balb_case_neolb a r d ha hr hd, fun inp h => balb_inert inp h⟩

/-- Witness for the amended C8: 밟 alone becomes 밥, and 넓주 becomes 넙주. -/
theorem c8_balb_exceptions_witness :
    balb ['ᄇ', 'ᅡ', 'ᆲ'] false = ['ᄇ', 'ᅡ', 'ᆸ'] ∧
      balb ['ᄂ', 'ᅥ', 'ᆲ', 'ᄌ', 'ᅮ'] false = ['ᄂ', 'ᅥ', 'ᆸ', 'ᄌ', 'ᅮ'] :=
  ⟨(c8_balb_exceptions [] [] 'ᄌ' (by simp) (by simp)).1,
   (c8_balb_exceptions [] [] 'ᄌ' (by simp) (by simp)).2.2.2.1 (Or.inl rfl)⟩

end KoSpeechTools
